import Mathlib

/-!
Verification development for the bib-to-rcaap relational sync core.

The Python sources are shallowly embedded as Lean definitions:
strings are modelled as lists of characters (PyStr), dict rows as
structures, the in-memory relational store as a record of row lists
plus counters, and the sheet-backed helper functions of
relational_sync.py as pure functions over lists of records (the
persisted table is modelled as the list of its data rows; reading it
yields values, so a mutation of a read-out record that is never
written back does not change the table).  Fallible code paths
(KeyError, ValueError, NameError) are modelled with Option.
-/

/-- A Python string, modelled as its list of characters. -/
abbrev PyStr := List Char

/-- Map a fallible function over a list, failing when any element fails;
models a Python loop or comprehension in which each step may raise. -/
def optMap {α β : Type} (f : α → Option β) : List α → Option (List β)
  | [] => some []
  | a :: rest =>
    match f a, optMap f rest with
    | some b, some bs => some (b :: bs)
    | _, _ => none

/-- Python str.strip() with no argument: remove whitespace from both ends. -/
def pyStrip (s : PyStr) : PyStr :=
  ((s.dropWhile Char.isWhitespace).reverse.dropWhile Char.isWhitespace).reverse

/-- Python str.lower() (ASCII case folding). -/
def lowerStr (s : PyStr) : PyStr := s.map Char.toLower

/-- Python s.split(sep) for a single-character separator: keep empty segments. -/
def splitOnChar (sep : Char) : PyStr → List PyStr
  | [] => [[]]
  | c :: rest =>
    if c = sep then [] :: splitOnChar sep rest
    else
      match splitOnChar sep rest with
      | [] => [[c]]
      | s :: ss => (c :: s) :: ss

/-- Python s.split(" and "): scan left to right for the literal five-character
separator, non-overlapping, keeping empty segments (bibtex_parser.py line 81). -/
def splitAnd : PyStr → List PyStr
  | ' ' :: 'a' :: 'n' :: 'd' :: ' ' :: rest => [] :: splitAnd rest
  | c :: rest =>
      match splitAnd rest with
      | [] => [[c]]
      | s :: ss => (c :: s) :: ss
  | [] => [[]]

/-- Split at every whitespace character, keeping empty segments. -/
def splitWsRaw : PyStr → List PyStr
  | [] => [[]]
  | c :: rest =>
    if c.isWhitespace then [] :: splitWsRaw rest
    else
      match splitWsRaw rest with
      | [] => [[c]]
      | s :: ss => (c :: s) :: ss

/-- Python s.split() with no argument: whitespace-run split, no empty segments. -/
def wsTokens (s : PyStr) : List PyStr := (splitWsRaw s).filter (· ≠ [])

/-- Fuel-driven scanner for replaceList; the fuel is an upper bound on the
length of the string still to be scanned, so it never runs out. -/
def replaceFuel (pat rep : PyStr) : Nat → PyStr → PyStr
  | 0, s => s
  | _ + 1, [] => []
  | f + 1, c :: rest =>
    if !pat.isEmpty && pat.isPrefixOf (c :: rest) then
      rep ++ replaceFuel pat rep f (rest.drop (pat.length - 1))
    else
      c :: replaceFuel pat rep f rest

/-- Python s.replace(pat, rep) for a nonempty pattern: replace every
non-overlapping occurrence, scanning left to right. -/
def replaceList (pat rep s : PyStr) : PyStr := replaceFuel pat rep s.length s

/-- Python sep.join(parts). -/
def joinSep (sep : PyStr) : List PyStr → PyStr
  | [] => []
  | [x] => x
  | x :: y :: rest => x ++ sep ++ joinSep sep (y :: rest)

/-- The decimal digit character for d < 10. -/
def digitChar (d : Nat) : Char := Char.ofNat (48 + d)

/-- Fuel-driven digit expansion; the fuel is an upper bound on n, so with
fuel n the expansion is complete. -/
def natDigitsFuel : Nat → Nat → PyStr
  | 0, _ => []
  | f + 1, n => if n = 0 then [] else natDigitsFuel f (n / 10) ++ [digitChar (n % 10)]

/-- Big-endian decimal digits of n (empty for 0). -/
def natDigits (n : Nat) : PyStr := natDigitsFuel n n

/-- Python str(n) for a nonnegative integer. -/
def pyNatStr (n : Nat) : PyStr := if n = 0 then ['0'] else natDigits n

/-- Python str(k) for an int. -/
def pyIntStr (k : Int) : PyStr :=
  if k < 0 then '-' :: pyNatStr k.natAbs else pyNatStr k.toNat

/-- Value of a big-endian decimal digit string. -/
def digitsToNat (s : PyStr) : Nat := s.foldl (fun acc c => acc * 10 + (c.toNat - 48)) 0

/-- Sign-and-digits recognition on the stripped contents of an int literal. -/
def pyIntParseCore : PyStr → Option Int
  | [] => none
  | c :: rest =>
    if c = '-' then
      if rest ≠ [] ∧ rest.all Char.isDigit then some (-(digitsToNat rest : Int)) else none
    else if c = '+' then
      if rest ≠ [] ∧ rest.all Char.isDigit then some ((digitsToNat rest : Int)) else none
    else
      if (c :: rest).all Char.isDigit then some ((digitsToNat (c :: rest) : Int)) else none

/-- Python int(s) on a string: optional surrounding whitespace, optional sign,
one or more decimal digits; None models a ValueError. -/
def pyIntParse (s : PyStr) : Option Int := pyIntParseCore (pyStrip s)

/-- Exponent part of a float literal: optional sign then digits. -/
def expDigits : PyStr → Option Int
  | '-' :: r => if r ≠ [] ∧ r.all Char.isDigit then some (-(digitsToNat r : Int)) else none
  | '+' :: r => if r ≠ [] ∧ r.all Char.isDigit then some ((digitsToNat r : Int)) else none
  | r => if r ≠ [] ∧ r.all Char.isDigit then some ((digitsToNat r : Int)) else none

/-- Python int(float(s)): parse a decimal float literal and truncate toward
zero; None models a ValueError (or the OverflowError raised for inf). -/
def pyFloatTrunc (s : PyStr) : Option Int :=
  let t := pyStrip s
  let p : Int × PyStr :=
    match t with
    | '-' :: rest => (-1, rest)
    | '+' :: rest => (1, rest)
    | _ => (1, t)
  let ip := p.2.takeWhile Char.isDigit
  let rest1 := p.2.drop ip.length
  let q : PyStr × PyStr :=
    match rest1 with
    | '.' :: r => (r.takeWhile Char.isDigit, r.drop (r.takeWhile Char.isDigit).length)
    | _ => ([], rest1)
  let exOpt : Option Int :=
    match q.2 with
    | [] => some 0
    | 'e' :: r3 => expDigits r3
    | 'E' :: r3 => expDigits r3
    | _ => none
  match exOpt with
  | none => none
  | some ex =>
    if ip = [] ∧ q.1 = [] then none
    else
      let mant : Nat := digitsToNat (ip ++ q.1)
      let scale : Int := (q.1.length : Int) - ex
      let mag : Nat := if scale ≤ 0 then mant * 10 ^ (-scale).toNat else mant / 10 ^ scale.toNat
      some (p.1 * mag)

/-- The order-parsing fallback chain of relational_sync.py
(_parse_order_local, lines 42-49, and _parse_order_sheet, lines 184-191):
int(val), else int(float(val)), else 0 - never raising. -/
def pyParseOrder (s : PyStr) : Int :=
  match pyIntParse s with
  | some k => k
  | none =>
    match pyFloatTrunc s with
    | some k => k
    | none => 0

/-- Python f-string formatting with format spec 03d for a nonnegative n:
pad the decimal digits with leading zeros to a minimum width of 3. -/
def fmt03 (n : Nat) : PyStr :=
  let d := pyNatStr n
  List.replicate (3 - d.length) '0' ++ d

/-- Does the string start with the 19-character ORCID pattern
NNNN-NNNN-NNNN-NNN[0-9Xx] of bibtex_parser._extract_orcid (line 157)? -/
def isOrcidAt : PyStr → Bool
  | a :: b :: c :: d :: h1 :: e :: f :: g :: h :: h2 :: i :: j :: k :: l :: h3 :: m :: n :: o
      :: p :: _ =>
    [a, b, c, d, e, f, g, h, i, j, k, l, m, n, o].all Char.isDigit &&
      h1 = '-' && h2 = '-' && h3 = '-' && (p.isDigit || p = 'X' || p = 'x')
  | _ => false

/-- Leftmost match of the ORCID pattern, as re.search finds it. -/
def extractOrcidList : PyStr → Option PyStr
  | [] => none
  | c :: rest => if isOrcidAt (c :: rest) then some ((c :: rest).take 19) else extractOrcidList rest

/-- bibtex_parser._extract_orcid (lines 151-164): the leftmost occurrence of
the ORCID pattern, or the empty string when there is none.  (The second
regex of the source, which requires an orcid.org/ context, can only match
when the first already did, so it never contributes.) -/
def extractOrcid (s : PyStr) : PyStr := (extractOrcidList s).getD []

/-- The name with ORCID material removed, as computed by
bibtex_parser._normalize_author_name lines 123-129: strip, then if an ORCID
was found remove it together with the orcid.org prefixes and any left-over
pair of parentheses. -/
def stripOrcidPart (name : PyStr) : PyStr :=
  let name := pyStrip name
  let orcid := extractOrcid name
  if orcid ≠ [] then
    replaceList "()".data []
      (replaceList "orcid.org/".data []
        (replaceList "https://orcid.org/".data [] (replaceList orcid [] name)))
  else name

/-- The nonempty stripped comma segments of a name
(bibtex_parser._normalize_author_name line 132). -/
def commaParts (name : PyStr) : List PyStr :=
  ((splitOnChar ',' name).map pyStrip).filter (· ≠ [])

/-- bibtex_parser._normalize_author_name (lines 116-137). -/
def normalizeAuthorName (name : PyStr) : PyStr :=
  if name = [] then []
  else if (stripOrcidPart name).contains ',' then
    match commaParts (stripOrcidPart name) with
    | p0 :: p1 :: rest => pyStrip (joinSep " ".data (p1 :: rest) ++ " ".data ++ p0)
    | _ => stripOrcidPart name
  else stripOrcidPart name

/-- bibtex_parser._split_name (lines 140-148): split the normalized name into
(given, family); the last whitespace token is the family name.  None models
the IndexError raised when a nonempty input consists of whitespace only. -/
def splitName (name : PyStr) : Option (PyStr × PyStr) :=
  if name = [] then some ([], [])
  else
    match wsTokens (pyStrip name) with
    | [] => none
    | [p] => some (p, [])
    | parts => some (joinSep " ".data parts.dropLast, parts.getLastD [])

/-- The (given, family) pair produced for one raw author segment by
bibtex_parser.entries_to_authors lines 83-84. -/
def givenFamilyOf (raw : PyStr) : Option (PyStr × PyStr) :=
  splitName (normalizeAuthorName raw)

/-- One raw bibliographic entry; only the fields entries_to_authors reads.
Absent dict keys are modelled as none. -/
structure Entry where
  idField : Option PyStr
  idLower : Option PyStr
  keyField : Option PyStr
  author : Option PyStr
  affiliation : Option PyStr
  institution : Option PyStr
deriving DecidableEq, Repr

/-- Python x or y over optional strings: first operand if present and
nonempty (truthy), else the second. -/
def pyOr (x : Option PyStr) (y : PyStr) : PyStr :=
  match x with
  | some s => if s ≠ [] then s else y
  | none => y

/-- e.get("ID") or e.get("id") or e.get("key") (bibtex_parser.py line 76). -/
def entryKey (e : Entry) : PyStr :=
  pyOr e.idField (pyOr e.idLower (e.keyField.getD []))

/-- e.get("affiliation", e.get("institution", "")) (bibtex_parser.py line 91). -/
def entryAffiliation (e : Entry) : PyStr :=
  match e.affiliation with
  | some s => s
  | none => e.institution.getD []

/-- One author row produced by bibtex_parser.entries_to_authors. -/
structure ParsedAuthor where
  name : PyStr
  nameNormalized : PyStr
  givenName : PyStr
  familyName : PyStr
  affiliation : PyStr
  key : PyStr
  order : Nat
  orcid : PyStr
deriving DecidableEq, Repr

/-- Pair each element with its 1-based position, in encounter order
(Python enumerate(authors, start=1)). -/
def numberFrom (n : Nat) : List PyStr → List (Nat × PyStr)
  | [] => []
  | a :: rest => (n, a) :: numberFrom (n + 1) rest

/-- The stripped, nonempty author segments of an author field
(bibtex_parser.py line 81). -/
def authorSegments (field : PyStr) : List PyStr :=
  ((splitAnd field).map pyStrip).filter (· ≠ [])

/-- The author row built for segment a with order idx (lines 83-95); None
models the IndexError that _split_name raises on a whitespace-only
normalized name. -/
def mkParsedAuthor (e : Entry) (idx : Nat) (a : PyStr) : Option ParsedAuthor :=
  match givenFamilyOf a with
  | none => none
  | some gf =>
    some {
      name := pyStrip a
      nameNormalized := normalizeAuthorName a
      givenName := gf.1
      familyName := gf.2
      affiliation := entryAffiliation e
      key := entryKey e
      order := idx
      orcid := extractOrcid a
    }

/-- All author rows of one entry, before deduplication. -/
def rowsOfEntry (e : Entry) : Option (List ParsedAuthor) :=
  match e.author with
  | none => some []
  | some field =>
    if field = [] then some []
    else optMap (fun p => mkParsedAuthor e p.1 p.2) (numberFrom 1 (authorSegments field))

/-- The deduplication tuple of bibtex_parser.py line 98. -/
def dedupeKey (r : ParsedAuthor) : PyStr × PyStr × PyStr :=
  (r.nameNormalized, r.key, r.orcid)

/-- bibtex_parser._dedupe_rows (lines 55-65) on the author dedupe key:
keep the first row for each key tuple. -/
def dedupeAuthors : List ParsedAuthor → List (PyStr × PyStr × PyStr) → List ParsedAuthor
  | [], _ => []
  | r :: rs, seen =>
    if (dedupeKey r) ∈ seen then dedupeAuthors rs seen
    else r :: dedupeAuthors rs (dedupeKey r :: seen)

/-- bibtex_parser.entries_to_authors (lines 68-99). -/
def entriesToAuthors (es : List Entry) : Option (List ParsedAuthor) :=
  match optMap rowsOfEntry es with
  | none => none
  | some rows => some (dedupeAuthors rows.flatten [])

/-- One row of the in-memory Publisher table (rcaap_relational.py line 16). -/
structure PublisherRow where
  idPublisher : PyStr
  publisherName : PyStr
deriving DecidableEq, Repr

/-- One row of the in-memory Venue table. -/
structure VenueRow where
  idVenue : PyStr
  venueName : PyStr
  idPublisher : PyStr
deriving DecidableEq, Repr

/-- One row of the in-memory Title table (rcaap_relational.py lines 71-82). -/
structure TitleRow where
  idTitle : PyStr
  title : PyStr
  year : PyStr
  idVenue : PyStr
  doi : PyStr
  url : PyStr
  abstract : PyStr
  typeField : PyStr
  language : PyStr
  keywords : PyStr
deriving DecidableEq, Repr

/-- One row of the in-memory Authors table (rcaap_relational.py line 105). -/
structure AuthorRow where
  idAuthor : PyStr
  authorName : PyStr
  orcid : PyStr
  affiliation : PyStr
deriving DecidableEq, Repr

/-- One row of the in-memory Author-Title junction table; Order is stored as
the string str(order) (rcaap_relational.py line 117). -/
structure AuthorTitleRow where
  idAuthor : PyStr
  idTitle : PyStr
  order : PyStr
deriving DecidableEq, Repr

/-- The InMemoryRelationalDB state: five row lists plus the per-prefix
counters of self._counters (rcaap_relational.py lines 14-23). -/
structure DB where
  publishers : List PublisherRow
  venues : List VenueRow
  titles : List TitleRow
  authors : List AuthorRow
  authorTitles : List AuthorTitleRow
  counterP : Nat
  counterV : Nat
  counterT : Nat
  counterA : Nat
deriving DecidableEq, Repr

/-- A freshly constructed InMemoryRelationalDB. -/
def emptyDB : DB := ⟨[], [], [], [], [], 0, 0, 0, 0⟩

/-- InMemoryRelationalDB.get_publisher_by_name (lines 30-35): first row whose
stripped name equals the stripped argument. -/
def getPublisherByName (db : DB) (name : PyStr) : Option PublisherRow :=
  db.publishers.find? (fun p => pyStrip p.publisherName == pyStrip name)

/-- InMemoryRelationalDB.get_or_create_publisher (lines 37-45). -/
def getOrCreatePublisher (db : DB) (name : PyStr) : PyStr × DB :=
  match getPublisherByName db name with
  | some p => (p.idPublisher, db)
  | none =>
    let pid := 'P' :: fmt03 (db.counterP + 1)
    (pid, { db with counterP := db.counterP + 1,
                    publishers := db.publishers ++ [⟨pid, pyStrip name⟩] })

/-- InMemoryRelationalDB.get_venue_by_name (lines 48-53). -/
def getVenueByName (db : DB) (name : PyStr) : Option VenueRow :=
  db.venues.find? (fun v => pyStrip v.venueName == pyStrip name)

/-- Overwrite the publisher reference of the first venue row whose stripped
name matches (the source writes it only when it differs, which has the same
result). -/
def setVenuePub : List VenueRow → PyStr → PyStr → List VenueRow
  | [], _, _ => []
  | v :: vs, n, pid =>
    if pyStrip v.venueName == n then { v with idPublisher := pid } :: vs
    else v :: setVenuePub vs n pid

/-- InMemoryRelationalDB.get_or_create_venue (lines 55-66). -/
def getOrCreateVenue (db : DB) (name idPub : PyStr) : PyStr × DB :=
  match getVenueByName db name with
  | some v => (v.idVenue, { db with venues := setVenuePub db.venues (pyStrip name) idPub })
  | none =>
    let vid := 'V' :: fmt03 (db.counterV + 1)
    (vid, { db with counterV := db.counterV + 1,
                    venues := db.venues ++ [⟨vid, pyStrip name, idPub⟩] })

/-- The non-id arguments of InMemoryRelationalDB.create_title. -/
structure TitleInput where
  title : PyStr
  year : PyStr
  idVenue : PyStr
  doi : PyStr
  url : PyStr
  abstract : PyStr
  typeField : PyStr
  language : PyStr
  keywords : PyStr
deriving DecidableEq, Repr

/-- A TitleInput with every field empty. -/
def emptyTitleInput : TitleInput := ⟨[], [], [], [], [], [], [], [], []⟩

/-- InMemoryRelationalDB.create_title (lines 69-84): always creates a fresh
row with the next T id; no lookup of any kind. -/
def createTitle (db : DB) (t : TitleInput) : PyStr × DB :=
  let tid := 'T' :: fmt03 (db.counterT + 1)
  (tid, { db with counterT := db.counterT + 1,
                  titles := db.titles ++
                    [⟨tid, t.title, t.year, t.idVenue, t.doi, t.url, t.abstract,
                      t.typeField, t.language, t.keywords⟩] })

/-- InMemoryRelationalDB.get_author_by_name (lines 87-92). -/
def getAuthorByName (db : DB) (name : PyStr) : Option AuthorRow :=
  db.authors.find? (fun a => pyStrip a.authorName == pyStrip name)

/-- Backfill orcid and affiliation of the first author row whose stripped
name matches, each only when the stored field is empty and the new value is
nonempty (rcaap_relational.py lines 98-102). -/
def backfillAuthor : List AuthorRow → PyStr → PyStr → PyStr → List AuthorRow
  | [], _, _, _ => []
  | a :: rest, n, orc, aff =>
    if pyStrip a.authorName == n then
      { a with orcid := if orc ≠ [] ∧ a.orcid = [] then orc else a.orcid,
               affiliation := if aff ≠ [] ∧ a.affiliation = [] then aff else a.affiliation }
        :: rest
    else a :: backfillAuthor rest n orc aff

/-- InMemoryRelationalDB.get_or_create_author (lines 94-107). -/
def getOrCreateAuthor (db : DB) (name orc aff : PyStr) : PyStr × DB :=
  match getAuthorByName db name with
  | some a => (a.idAuthor, { db with authors := backfillAuthor db.authors (pyStrip name) orc aff })
  | none =>
    let aid := 'A' :: fmt03 (db.counterA + 1)
    (aid, { db with counterA := db.counterA + 1,
                    authors := db.authors ++ [⟨aid, pyStrip name, orc, aff⟩] })

/-- The loop of InMemoryRelationalDB.add_author_title (lines 110-117): update
the Order of the first row with the same (author, title) pair, else append. -/
def upsertLink : List AuthorTitleRow → PyStr → PyStr → Int → List AuthorTitleRow
  | [], aid, tid, ord => [⟨aid, tid, pyIntStr ord⟩]
  | r :: rs, aid, tid, ord =>
    if r.idAuthor == aid && r.idTitle == tid then { r with order := pyIntStr ord } :: rs
    else r :: upsertLink rs aid tid ord

/-- InMemoryRelationalDB.add_author_title. -/
def addAuthorTitle (db : DB) (aid tid : PyStr) (ord : Int) : DB :=
  { db with authorTitles := upsertLink db.authorTitles aid tid ord }

/-- Lookup in a dict built by a comprehension over rows in order: a later row
with a duplicate key overwrites an earlier one, so lookup finds the last. -/
def lastPubName (ps : List PublisherRow) (pid : PyStr) : Option PyStr :=
  (ps.reverse.find? (fun p => p.idPublisher == pid)).map (·.publisherName)

/-- Last-wins lookup in the venue_map dict of export_rcaap_rows. -/
def lastVenue (vs : List VenueRow) (vid : PyStr) : Option VenueRow :=
  vs.reverse.find? (fun v => v.idVenue == vid)

/-- Last-wins lookup in the author_map dict of export_rcaap_rows. -/
def lastAuthorName (rows : List AuthorRow) (aid : PyStr) : Option PyStr :=
  (rows.reverse.find? (fun a => a.idAuthor == aid)).map (·.authorName)

/-- Publisher-name resolution of export_rcaap_rows (lines 141-147): empty
when the title has no venue id, the venue is unknown, or the publisher is
unknown. -/
def resolvePubName (db : DB) (idVenue : PyStr) : PyStr :=
  if idVenue = [] then []
  else
    match lastVenue db.venues idVenue with
    | none => []
    | some v => (lastPubName db.publishers v.idPublisher).getD []

/-- The (title id, int(Order), author id) triples built from every junction
row by export_rcaap_rows lines 131-133; None models the ValueError of int()
on an unparseable Order. -/
def allTitlePairs (db : DB) : Option (List (PyStr × Int × PyStr)) :=
  optMap (fun r => (pyIntParse r.order).map fun k => (r.idTitle, k, r.idAuthor)) db.authorTitles

/-- Stable insertion of a before every later element with key not below its
own; used to model the stable Python sorted. -/
def insertByKey {α : Type} (key : α → Int) (a : α) : List α → List α
  | [] => [a]
  | b :: bs => if key b < key a then b :: insertByKey key a bs else a :: b :: bs

/-- Stable sort by an integer key: the unique output that is sorted by the
key and keeps the original order of equal-key elements, which is what the
stable Python sorted(key=...) returns. -/
def stableSortByKey {α : Type} (key : α → Int) : List α → List α
  | [] => []
  | a :: rest => insertByKey key a (stableSortByKey key rest)

/-- The fixed key sequence of every exported row. -/
def dcKeys : List PyStr :=
  ["dc.title".data, "dc.contributor.author".data, "dc.date.issued".data,
   "dc.publisher".data, "dc.identifier.doi".data]

/-- The flat record export_rcaap_rows appends for one title row (lines
135-159), as the key-value list of the Python dict literal; None models the
KeyError of author_map[a_id] for an unknown author id. -/
def exportRowFor (db : DB) (pairs : List (PyStr × Int × PyStr)) (t : TitleRow) :
    Option (List (PyStr × PyStr)) :=
  match optMap (fun p => lastAuthorName db.authors p.2)
      (stableSortByKey (fun p => p.1) ((pairs.filter (fun p => p.1 == t.idTitle)).map (·.2))) with
  | none => none
  | some names =>
    some [("dc.title".data, t.title),
          ("dc.contributor.author".data, joinSep "; ".data names),
          ("dc.date.issued".data, t.year),
          ("dc.publisher".data, resolvePubName db t.idVenue),
          ("dc.identifier.doi".data, t.doi)]

/-- InMemoryRelationalDB.export_rcaap_rows (lines 120-160): one record per
title row, in table order; None models an uncaught int() or KeyError raise. -/
def exportRcaapRows (db : DB) : Option (List (List (PyStr × PyStr))) :=
  match allTitlePairs db with
  | none => none
  | some pairs => optMap (exportRowFor db pairs) db.titles

/-- One call to the public in-memory store API. -/
inductive Op where
  | pub (name : PyStr)
  | venue (name idPub : PyStr)
  | title (t : TitleInput)
  | author (name orc aff : PyStr)
  | link (aid tid : PyStr) (ord : Int)
deriving DecidableEq, Repr

/-- The state after one public API call (the returned id is dropped). -/
def applyOp (db : DB) : Op → DB
  | .pub n => (getOrCreatePublisher db n).2
  | .venue n p => (getOrCreateVenue db n p).2
  | .title t => (createTitle db t).2
  | .author n o a => (getOrCreateAuthor db n o a).2
  | .link a t o => addAuthorTitle db a t o

/-- Run a sequence of public API calls. -/
def runOps (db : DB) (ops : List Op) : DB := ops.foldl applyOp db

/-- A store state reachable from a fresh store through the public operations
with arbitrary arguments. -/
def Reachable (db : DB) : Prop := ∃ ops : List Op, runOps emptyDB ops = db

/-- The author ids currently present in the Authors table. -/
def authorIds (db : DB) : List PyStr := db.authors.map (·.idAuthor)

/-- A trace is link-valid when every add_author_title call passes an author
id that exists in the Authors table at call time. -/
def validOps (db : DB) : List Op → Bool
  | [] => true
  | op :: rest =>
    (match op with
     | .link aid _ _ => aid ∈ authorIds db
     | _ => true) &&
    validOps (applyOp db op) rest

/-- A store state reachable through a link-valid trace. -/
def ReachableLinked (db : DB) : Prop :=
  ∃ ops : List Op, validOps emptyDB ops = true ∧ runOps emptyDB ops = db

/-- The numeric suffix that relational_sync._next_id (lines 76-79) reads off
an existing id for prefix character c: the id must be nonempty, start with
c, and consist of digits once every leading copy of c is stripped. -/
def idSuffix (c : Char) : PyStr → Option Nat
  | [] => none
  | d :: s =>
    if d = c then
      if (d :: s).dropWhile (· = c) ≠ [] ∧ ((d :: s).dropWhile (· = c)).all Char.isDigit then
        some (digitsToNat ((d :: s).dropWhile (· = c)))
      else none
    else none

/-- relational_sync._next_id (lines 76-79): one more than the maximum
numeric suffix among the well-formed existing ids (0 when there is none),
in the 03d zero-padded format. -/
def sheetNextId (ids : List PyStr) (c : Char) : PyStr :=
  let nums := ids.filterMap (idSuffix c)
  c :: fmt03 (nums.foldl max 0 + 1)

/-- The worksheet-backed get_or_create_publisher of relational_sync (lines
84-94), as a function of the Publisher table data rows: get_all_records is
a read of row values and _append_dicts appends one row. -/
def sheetGetOrCreatePublisher (rows : List PublisherRow) (name : PyStr) :
    PyStr × List PublisherRow :=
  match rows.find? (fun r => pyStrip r.publisherName == pyStrip name) with
  | some r => (r.idPublisher, rows)
  | none =>
    (sheetNextId (rows.map (·.idPublisher)) 'P',
     rows ++ [⟨sheetNextId (rows.map (·.idPublisher)) 'P', pyStrip name⟩])

/-- The worksheet-backed get_or_create_author (lines 110-124): on a name hit
the ORCID and affiliation backfill assignments mutate only the transient
record list returned by get_all_records and no write call follows, so the
table itself is unchanged. -/
def sheetGetOrCreateAuthor (rows : List AuthorRow) (name orc aff : PyStr) :
    PyStr × List AuthorRow :=
  match rows.find? (fun r => pyStrip r.authorName == pyStrip name) with
  | some r => (r.idAuthor, rows)
  | none =>
    (sheetNextId (rows.map (·.idAuthor)) 'A',
     rows ++ [⟨sheetNextId (rows.map (·.idAuthor)) 'A', pyStrip name, orc, aff⟩])

/-- The DOI comparison of relational_sync.py line 131: the stored DOI,
stripped and lowercased, equals the (already stripped) query lowercased. -/
def doiMatches (d : PyStr) (r : TitleRow) : Bool :=
  lowerStr (pyStrip r.doi) == lowerStr d

/-- The number of stored Title rows whose DOI strip-lowercase-matches d. -/
def countDoi (rows : List TitleRow) (d : PyStr) : Nat :=
  (rows.filter (doiMatches d)).length

/-- The worksheet-backed create_or_get_title_id (lines 126-147): when the
stripped doi of the incoming row is nonempty, return the id of the first
stored row whose DOI is strip-and-lowercase equal; otherwise append a fresh
row with the next T id, storing the doi as given. -/
def sheetCreateOrGetTitleId (rows : List TitleRow) (t : TitleInput) :
    PyStr × List TitleRow :=
  match rows.find? (fun r => !(pyStrip t.doi).isEmpty && doiMatches (pyStrip t.doi) r) with
  | some r => (r.idTitle, rows)
  | none =>
    (sheetNextId (rows.map (·.idTitle)) 'T',
     rows ++ [⟨sheetNextId (rows.map (·.idTitle)) 'T', t.title, t.year, t.idVenue, t.doi,
               t.url, t.abstract, t.typeField, t.language, t.keywords⟩])

/-- The worksheet-backed ensure_author_title_link (lines 149-164): when a
row with the pair exists, the order update is applied to the transient
record list only and never written back, so the table is unchanged;
otherwise a new row with str(order) is appended. -/
def sheetEnsureLink (rows : List AuthorTitleRow) (aid tid : PyStr) (ord : Int) :
    List AuthorTitleRow :=
  match rows.find? (fun r => r.idAuthor == aid && r.idTitle == tid) with
  | some _ => rows
  | none => rows ++ [⟨aid, tid, pyIntStr ord⟩]

/-- One author dict as consumed by sync_entries; only the fields its
ordering and selection logic reads. -/
structure SyncAuthor where
  name : PyStr
  key : PyStr
  order : PyStr
  orcid : PyStr
  affiliation : PyStr
deriving DecidableEq, Repr

/-- The authors selected for one title: those whose key equals the title
key (relational_sync.py lines 40 and 182). -/
def authsFor (authors : List SyncAuthor) (key : PyStr) : List SyncAuthor :=
  authors.filter (fun a => a.key == key)

/-- The in-memory branch sort of relational_sync.py line 51: stable sort by
each element's own parsed order (the key lambda reads its parameter x). -/
def inMemSortAuths (l : List SyncAuthor) : List SyncAuthor :=
  stableSortByKey (fun a => pyParseOrder a.order) l

/-- The sheet branch sort of relational_sync.py line 193, whose key lambda
reads the enclosing variable a - the loop variable of a previous iteration -
instead of its parameter x.  On the first title with a nonempty author list
the variable is unbound and evaluating the key raises NameError (modelled as
none); on later titles the key is the constant parsed order of the stale
author, so the stable sort keeps the encounter order. -/
def sheetSortAuths (aPrev : Option SyncAuthor) (l : List SyncAuthor) :
    Option (List SyncAuthor) :=
  match l with
  | [] => some []
  | _ :: _ =>
    match aPrev with
    | none => none
    | some a0 => some (stableSortByKey (fun _ => pyParseOrder a0.order) l)

/-- The id column of a table is well formed for prefix c and counter bound:
the ids are the prefix followed by the zero-padded counter values, in
strictly increasing order, all between 1 and the current counter. -/
def idsWellFormed (ids : List PyStr) (c : Char) (bound : Nat) : Prop :=
  ∃ ks : List Nat, ids = ks.map (fun k => c :: fmt03 k) ∧ ks.Chain' (· < ·) ∧
    ∀ k ∈ ks, 1 ≤ k ∧ k ≤ bound

/-- At most one junction row per (author id, title id) pair. -/
def linkPairsUnique (db : DB) : Prop :=
  db.authorTitles.Pairwise (fun r1 r2 => ¬(r1.idAuthor = r2.idAuthor ∧ r1.idTitle = r2.idTitle))

/-- The in-memory store invariant maintained by every public operation. -/
def storeInv (db : DB) : Prop :=
  idsWellFormed (db.publishers.map (·.idPublisher)) 'P' db.counterP ∧
  idsWellFormed (db.venues.map (·.idVenue)) 'V' db.counterV ∧
  idsWellFormed (db.titles.map (·.idTitle)) 'T' db.counterT ∧
  idsWellFormed (db.authors.map (·.idAuthor)) 'A' db.counterA ∧
  db.publishers.Pairwise (fun p q => pyStrip p.publisherName ≠ pyStrip q.publisherName) ∧
  linkPairsUnique db ∧
  ∀ r ∈ db.authorTitles, ∃ k : Int, r.order = pyIntStr k

/-- Every id ever assigned by the store, per table, in assignment order. -/
def allIds (db : DB) : List PyStr :=
  db.publishers.map (·.idPublisher) ++ db.venues.map (·.idVenue) ++
    db.titles.map (·.idTitle) ++ db.authors.map (·.idAuthor)

/-- The conditions under which export_rcaap_rows cannot raise: every
junction row's Order is the decimal string of an int and references an
existing author id. -/
def exportSafe (db : DB) : Prop :=
  ∀ r ∈ db.authorTitles,
    (∃ k : Int, r.order = pyIntStr k) ∧ ∃ a ∈ db.authors, a.idAuthor = r.idAuthor

/-- Refinement reference for the exporter, following the words of the spec
(section 4.5): the authors of a title are its junction rows sorted by their
order parsed as an integer, mapped to the stored display names, joined with
a semicolon and space; the publisher is resolved through the venue row. -/
def specAuthorsJoined (db : DB) (tid : PyStr) : PyStr :=
  joinSep "; ".data
    ((stableSortByKey (fun r => (pyIntParse r.order).getD 0)
        (db.authorTitles.filter (fun r => r.idTitle == tid))).map
      (fun r => (lastAuthorName db.authors r.idAuthor).getD []))

/-- Refinement reference for one exported record, following the words of
the spec: the five fixed dc keys in order, with the joined ordered author
names and the venue-chain publisher. -/
def specExportRecord (db : DB) (t : TitleRow) : List (PyStr × PyStr) :=
  [("dc.title".data, t.title),
   ("dc.contributor.author".data, specAuthorsJoined db t.idTitle),
   ("dc.date.issued".data, t.year),
   ("dc.publisher".data, resolvePubName db t.idVenue),
   ("dc.identifier.doi".data, t.doi)]

theorem natDigitsFuel_zero (f : Nat) : natDigitsFuel f 0 = [] := by
  cases f <;> simp [natDigitsFuel]

theorem natDigitsFuel_congr :
    ∀ f g n, n ≤ f → n ≤ g → natDigitsFuel f n = natDigitsFuel g n := by
  intro f
  induction f with
  | zero =>
    intro g n hf _
    have : n = 0 := Nat.le_zero.mp hf
    subst this
    rw [natDigitsFuel_zero, natDigitsFuel_zero]
  | succ f ih =>
    intro g n hf hg
    match n, g with
    | 0, g => rw [natDigitsFuel_zero, natDigitsFuel_zero]
    | n + 1, 0 => exact absurd hg (by omega)
    | n + 1, g + 1 =>
      show natDigitsFuel (f + 1) (n + 1) = natDigitsFuel (g + 1) (n + 1)
      simp only [natDigitsFuel, if_neg (Nat.succ_ne_zero n)]
      have hdiv : (n + 1) / 10 < n + 1 := Nat.div_lt_self (Nat.succ_pos n) (by norm_num)
      rw [ih g ((n + 1) / 10) (by omega) (by omega)]

theorem natDigits_eq (n : Nat) (h : n ≠ 0) :
    natDigits n = natDigits (n / 10) ++ [digitChar (n % 10)] := by
  unfold natDigits
  cases n with
  | zero => exact absurd rfl h
  | succ m =>
    show natDigitsFuel (m + 1) (m + 1) = _
    simp only [natDigitsFuel, if_neg (Nat.succ_ne_zero m)]
    have hdiv : (m + 1) / 10 < m + 1 := Nat.div_lt_self (Nat.succ_pos m) (by norm_num)
    rw [natDigitsFuel_congr m ((m + 1) / 10) ((m + 1) / 10) (by omega) (by omega)]

theorem digitChar_isDigit (d : Nat) (h : d < 10) : (digitChar d).isDigit = true := by
  interval_cases d <;> decide

theorem toNat_digitChar (d : Nat) (h : d < 10) : (digitChar d).toNat = 48 + d := by
  interval_cases d <;> decide

theorem natDigits_all_isDigit (n : Nat) : ∀ c ∈ natDigits n, c.isDigit = true := by
  induction n using Nat.strong_induction_on with
  | _ n ih =>
    by_cases h : n = 0
    · subst h; intro c hc; simp [natDigits, natDigitsFuel] at hc
    · rw [natDigits_eq n h]
      intro c hc
      rcases List.mem_append.mp hc with h1 | h1
      · exact ih (n / 10) (Nat.div_lt_self (Nat.pos_of_ne_zero h) (by norm_num)) c h1
      · have : c = digitChar (n % 10) := by simpa using h1
        subst this
        exact digitChar_isDigit _ (Nat.mod_lt _ (by norm_num))

theorem natDigits_ne_nil (n : Nat) (h : n ≠ 0) : natDigits n ≠ [] := by
  rw [natDigits_eq n h]; simp

theorem digitsToNat_append_singleton (l : PyStr) (c : Char) :
    digitsToNat (l ++ [c]) = digitsToNat l * 10 + (c.toNat - 48) := by
  simp [digitsToNat, List.foldl_append]

theorem digitsToNat_natDigits (n : Nat) : digitsToNat (natDigits n) = n := by
  induction n using Nat.strong_induction_on with
  | _ n ih =>
    by_cases h : n = 0
    · subst h; rfl
    · rw [natDigits_eq n h, digitsToNat_append_singleton,
        ih (n / 10) (Nat.div_lt_self (Nat.pos_of_ne_zero h) (by norm_num)),
        toNat_digitChar _ (Nat.mod_lt _ (by norm_num))]
      omega

theorem pyNatStr_all_isDigit (n : Nat) : ∀ c ∈ pyNatStr n, c.isDigit = true := by
  unfold pyNatStr
  by_cases h : n = 0
  · subst h; intro c hc; simp at hc; subst hc; decide
  · rw [if_neg h]; exact natDigits_all_isDigit n

theorem pyNatStr_ne_nil (n : Nat) : pyNatStr n ≠ [] := by
  unfold pyNatStr
  by_cases h : n = 0
  · subst h; simp
  · rw [if_neg h]; exact natDigits_ne_nil n h

theorem digitsToNat_pyNatStr (n : Nat) : digitsToNat (pyNatStr n) = n := by
  unfold pyNatStr
  by_cases h : n = 0
  · subst h; rfl
  · rw [if_neg h]; exact digitsToNat_natDigits n

theorem digitsToNat_replicate_zero (k : Nat) (l : PyStr) :
    digitsToNat (List.replicate k '0' ++ l) = digitsToNat l := by
  induction k with
  | zero => simp
  | succ k ih =>
    have h0 : ('0' : Char).toNat - 48 = 0 := by decide
    show digitsToNat ('0' :: (List.replicate k '0' ++ l)) = digitsToNat l
    unfold digitsToNat at *
    rw [List.foldl_cons, h0]
    simpa using ih

theorem digitsToNat_fmt03 (n : Nat) : digitsToNat (fmt03 n) = n := by
  unfold fmt03
  rw [digitsToNat_replicate_zero, digitsToNat_pyNatStr]

theorem fmt03_all_isDigit (n : Nat) : ∀ c ∈ fmt03 n, c.isDigit = true := by
  unfold fmt03
  intro c hc
  rcases List.mem_append.mp hc with h1 | h1
  · have := List.eq_of_mem_replicate h1; subst this; decide
  · exact pyNatStr_all_isDigit n c h1

theorem fmt03_ne_nil (n : Nat) : fmt03 n ≠ [] := by
  unfold fmt03
  intro h
  rcases List.append_eq_nil.mp h with ⟨_, h2⟩
  exact pyNatStr_ne_nil n h2

theorem fmt03_inj {a b : Nat} (h : fmt03 a = fmt03 b) : a = b := by
  have := congrArg digitsToNat h
  rwa [digitsToNat_fmt03, digitsToNat_fmt03] at this

theorem isDigit_not_isWhitespace (c : Char) (h : c.isDigit = true) :
    c.isWhitespace = false := by
  simp [Char.isDigit] at h
  simp [Char.isWhitespace]
  and_intros <;> (intro he; subst he; revert h; decide)

theorem dropWhile_eq_self_of_not {p : Char → Bool} :
    ∀ l : PyStr, (∀ c ∈ l, p c = false) → l.dropWhile p = l := by
  intro l h
  cases l with
  | nil => rfl
  | cons c rest =>
    rw [List.dropWhile_cons, h c (List.mem_cons_self c rest)]
    simp

theorem pyStrip_eq_self (l : PyStr) (h : ∀ c ∈ l, c.isWhitespace = false) :
    pyStrip l = l := by
  unfold pyStrip
  rw [dropWhile_eq_self_of_not l h,
    dropWhile_eq_self_of_not l.reverse (fun c hc => h c (List.mem_reverse.mp hc)),
    List.reverse_reverse]

theorem pyStrip_pyNatStr (n : Nat) : pyStrip (pyNatStr n) = pyNatStr n :=
  pyStrip_eq_self _ (fun c hc => isDigit_not_isWhitespace c (pyNatStr_all_isDigit n c hc))

theorem all_isDigit_pyNatStr (n : Nat) : (pyNatStr n).all Char.isDigit = true := by
  rw [List.all_eq_true]
  intro x hx
  exact pyNatStr_all_isDigit n x hx

theorem pyIntParse_pyNatStr (n : Nat) : pyIntParse (pyNatStr n) = some (n : Int) := by
  unfold pyIntParse
  rw [pyStrip_pyNatStr]
  cases h : pyNatStr n with
  | nil => exact absurd h (pyNatStr_ne_nil n)
  | cons c rest =>
    have hcd : c.isDigit = true := pyNatStr_all_isDigit n c (h ▸ List.mem_cons_self c rest)
    have hc1 : c ≠ '-' := by intro he; subst he; revert hcd; decide
    have hc2 : c ≠ '+' := by intro he; subst he; revert hcd; decide
    have hall : (c :: rest).all Char.isDigit = true := h ▸ all_isDigit_pyNatStr n
    rw [pyIntParseCore, if_neg hc1, if_neg hc2, if_pos hall, ← h, digitsToNat_pyNatStr n]

theorem pyIntParse_minus_pyNatStr (n : Nat) :
    pyIntParse ('-' :: pyNatStr n) = some (-(n : Int)) := by
  unfold pyIntParse
  have hstrip : pyStrip ('-' :: pyNatStr n) = '-' :: pyNatStr n := by
    apply pyStrip_eq_self
    intro c hc
    rcases List.mem_cons.mp hc with h1 | h1
    · subst h1; decide
    · exact isDigit_not_isWhitespace c (pyNatStr_all_isDigit n c h1)
  rw [hstrip, pyIntParseCore, if_pos rfl,
    if_pos ⟨pyNatStr_ne_nil n, all_isDigit_pyNatStr n⟩, digitsToNat_pyNatStr n]

theorem pyIntParse_pyIntStr (k : Int) : pyIntParse (pyIntStr k) = some k := by
  unfold pyIntStr
  by_cases hk : k < 0
  · rw [if_pos hk, pyIntParse_minus_pyNatStr]
    congr 1
    omega
  · rw [if_neg hk, pyIntParse_pyNatStr]
    congr 1
    omega

theorem le_foldl_max : ∀ (l : List Nat) (a : Nat), a ≤ l.foldl max a := by
  intro l
  induction l with
  | nil => intro a; simp
  | cons x xs ih => intro a; exact le_trans (le_max_left a x) (ih (max a x))

theorem mem_le_foldl_max :
    ∀ (l : List Nat) (a x : Nat), x ∈ l → x ≤ l.foldl max a := by
  intro l
  induction l with
  | nil => intro a x hx; simp at hx
  | cons y ys ih =>
    intro a x hx
    rcases List.mem_cons.mp hx with h1 | h1
    · subst h1
      exact le_trans (le_max_right a x) (le_foldl_max ys (max a x))
    · exact ih (max a y) x h1

theorem find?_congr {α : Type} (p q : α → Bool) :
    ∀ l : List α, (∀ a ∈ l, p a = q a) → l.find? p = l.find? q := by
  intro l
  induction l with
  | nil => intro _; rfl
  | cons x xs ih =>
    intro h
    by_cases hq : q x = true
    · rw [List.find?_cons_of_pos xs (by rw [h x (List.mem_cons_self x xs)]; exact hq),
        List.find?_cons_of_pos xs hq]
    · rw [List.find?_cons_of_neg xs (by rw [h x (List.mem_cons_self x xs)]; exact hq),
        List.find?_cons_of_neg xs hq]
      exact ih (fun a ha => h a (List.mem_cons_of_mem x ha))

theorem all_isDigit_fmt03 (n : Nat) : (fmt03 n).all Char.isDigit = true := by
  rw [List.all_eq_true]
  intro x hx
  exact fmt03_all_isDigit n x hx

theorem dropWhile_eq_fmt03 (c : Char) (n : Nat) (hc : c.isDigit = false) :
    (fmt03 n).dropWhile (· = c) = fmt03 n := by
  apply dropWhile_eq_self_of_not
  intro x hxm
  simp only [decide_eq_false_iff_not]
  intro he
  have ht := fmt03_all_isDigit n x hxm
  rw [he, hc] at ht
  exact Bool.false_ne_true ht

theorem idSuffix_prefixed (c : Char) (n : Nat) (hc : c.isDigit = false) :
    idSuffix c (c :: fmt03 n) = some n := by
  have hd : (c :: fmt03 n).dropWhile (· = c) = fmt03 n := by
    rw [List.dropWhile_cons]
    simp only [decide_True, if_true]
    exact dropWhile_eq_fmt03 c n hc
  rw [idSuffix, if_pos rfl, hd, if_pos ⟨fmt03_ne_nil n, all_isDigit_fmt03 n⟩,
    digitsToNat_fmt03]

theorem sheetNextId_eq (ids : List PyStr) (c : Char) :
    sheetNextId ids c = c :: fmt03 ((ids.filterMap (idSuffix c)).foldl max 0 + 1) := rfl

theorem idSuffix_sheetNextId (ids : List PyStr) (c : Char) (hc : c.isDigit = false) :
    idSuffix c (sheetNextId ids c) =
      some ((ids.filterMap (idSuffix c)).foldl max 0 + 1) := by
  rw [sheetNextId_eq]
  exact idSuffix_prefixed c _ hc

theorem sheetNextId_not_mem (ids : List PyStr) (c : Char) (hc : c.isDigit = false) :
    sheetNextId ids c ∉ ids := by
  intro hmem
  have hs := idSuffix_sheetNextId ids c hc
  have hin : (ids.filterMap (idSuffix c)).foldl max 0 + 1 ∈ ids.filterMap (idSuffix c) :=
    List.mem_filterMap.mpr ⟨_, hmem, hs⟩
  have := mem_le_foldl_max _ 0 _ hin
  omega

theorem optMap_eq_some_map {α β : Type} (f : α → Option β) (g : α → β) :
    ∀ l : List α, (∀ a ∈ l, f a = some (g a)) → optMap f l = some (l.map g) := by
  intro l
  induction l with
  | nil => intro _; rfl
  | cons a rest ih =>
    intro h
    rw [optMap, h a (List.mem_cons_self a rest), ih (fun x hx => h x (List.mem_cons_of_mem a hx)),
      List.map_cons]

theorem optMap_some_length {α β : Type} (f : α → Option β) :
    ∀ (l : List α) (bs : List β), optMap f l = some bs → bs.length = l.length := by
  intro l
  induction l with
  | nil => intro bs h; rw [optMap] at h; cases h; rfl
  | cons a rest ih =>
    intro bs h
    rw [optMap] at h
    cases hfa : f a with
    | none => rw [hfa] at h; cases h
    | some b =>
      rw [hfa] at h
      cases hrest : optMap f rest with
      | none => rw [hrest] at h; cases h
      | some bs2 =>
        rw [hrest] at h
        cases h
        simp [ih bs2 hrest]

theorem dropWhile_head_false {p : Char → Bool} :
    ∀ (l : PyStr) (c : Char) (rest : PyStr), l.dropWhile p = c :: rest → p c = false := by
  intro l
  induction l with
  | nil => intro c rest h; simp at h
  | cons x xs ih =>
    intro c rest h
    by_cases hx : p x = true
    · rw [List.dropWhile_cons_of_pos hx] at h
      exact ih c rest h
    · rw [List.dropWhile_cons_of_neg (by simpa using hx)] at h
      cases h
      simpa using hx

theorem pyStrip_prefix_dropWhile (s : PyStr) :
    pyStrip s <+: s.dropWhile Char.isWhitespace := by
  have h := List.dropWhile_suffix (l := (s.dropWhile Char.isWhitespace).reverse)
    (p := Char.isWhitespace)
  have h2 := h.reverse
  rwa [List.reverse_reverse] at h2

theorem pyStrip_head_not_ws (s : PyStr) (c : Char) (rest : PyStr)
    (h : pyStrip s = c :: rest) : c.isWhitespace = false := by
  obtain ⟨t, ht⟩ := pyStrip_prefix_dropWhile s
  rw [h] at ht
  exact dropWhile_head_false s c (rest ++ t) (by rw [← ht]; simp)

theorem pyStrip_reverse_eq (s : PyStr) :
    (pyStrip s).reverse =
      ((s.dropWhile Char.isWhitespace).reverse).dropWhile Char.isWhitespace := by
  unfold pyStrip
  rw [List.reverse_reverse]

theorem pyStrip_last_not_ws (s : PyStr) (c : Char) (rest : PyStr)
    (h : (pyStrip s).reverse = c :: rest) : c.isWhitespace = false := by
  rw [pyStrip_reverse_eq] at h
  exact dropWhile_head_false _ c rest h

theorem pyStrip_eq_self_of_ends (l : PyStr)
    (h1 : ∀ c rest, l = c :: rest → c.isWhitespace = false)
    (h2 : ∀ c rest, l.reverse = c :: rest → c.isWhitespace = false) :
    pyStrip l = l := by
  unfold pyStrip
  have ha : l.dropWhile Char.isWhitespace = l := by
    cases hl : l with
    | nil => simp
    | cons c rest =>
      rw [List.dropWhile_cons_of_neg (by simp [h1 c rest hl])]
  rw [ha]
  have hb : l.reverse.dropWhile Char.isWhitespace = l.reverse := by
    cases hl : l.reverse with
    | nil => simp
    | cons c rest =>
      rw [List.dropWhile_cons_of_neg (by simp [h2 c rest hl])]
  rw [hb, List.reverse_reverse]

theorem pyStrip_idem (s : PyStr) : pyStrip (pyStrip s) = pyStrip s := by
  apply pyStrip_eq_self_of_ends
  · exact fun c rest h => pyStrip_head_not_ws s c rest h
  · exact fun c rest h => pyStrip_last_not_ws s c rest h

theorem pyStrip_eq_nil_of_allws (s : PyStr) (h : ∀ c ∈ s, c.isWhitespace = true) :
    pyStrip s = [] := by
  unfold pyStrip
  rw [List.dropWhile_eq_nil_iff.mpr (fun x hx => h x hx)]
  simp

theorem commaParts_mem (s p : PyStr) (h : p ∈ commaParts s) :
    p ≠ [] ∧ pyStrip p = p := by
  unfold commaParts at h
  have h1 := List.mem_filter.mp h
  refine ⟨by simpa using h1.2, ?_⟩
  obtain ⟨x, _, hx⟩ := List.mem_map.mp h1.1
  rw [← hx]
  exact pyStrip_idem x

theorem splitWsRaw_ne_nil : ∀ l : PyStr, splitWsRaw l ≠ [] := by
  intro l
  cases l with
  | nil => simp [splitWsRaw]
  | cons c rest =>
    rw [splitWsRaw]
    by_cases h : c.isWhitespace = true
    · rw [if_pos h]; simp
    · rw [if_neg h]
      cases hs : splitWsRaw rest <;> simp

theorem splitWsRaw_append_sep (sep : Char) (hsep : sep.isWhitespace = true) :
    ∀ x y : PyStr, splitWsRaw (x ++ sep :: y) = splitWsRaw x ++ splitWsRaw y := by
  intro x y
  induction x with
  | nil =>
    show splitWsRaw (sep :: y) = splitWsRaw [] ++ splitWsRaw y
    simp only [splitWsRaw]
    rw [if_pos hsep]
    rfl
  | cons c xs ih =>
    show splitWsRaw (c :: (xs ++ sep :: y)) = splitWsRaw (c :: xs) ++ splitWsRaw y
    simp only [splitWsRaw]
    by_cases h : c.isWhitespace = true
    · rw [if_pos h, if_pos h, ih]
      rfl
    · rw [if_neg h, if_neg h, ih]
      cases hs : splitWsRaw xs with
      | nil => exact absurd hs (splitWsRaw_ne_nil xs)
      | cons s ss => rfl

theorem wsTokens_append_sep (sep : Char) (hsep : sep.isWhitespace = true)
    (x y : PyStr) : wsTokens (x ++ sep :: y) = wsTokens x ++ wsTokens y := by
  unfold wsTokens
  rw [splitWsRaw_append_sep sep hsep, List.filter_append]

theorem splitWsRaw_all_nonws (l : PyStr) (hne : l ≠ [])
    (h : ∀ c ∈ l, c.isWhitespace = false) : splitWsRaw l = [l] := by
  induction l with
  | nil => exact absurd rfl hne
  | cons c rest ih =>
    rw [splitWsRaw, if_neg (by simp [h c (List.mem_cons_self c rest)])]
    cases hr : rest with
    | nil => rfl
    | cons d ds =>
      rw [← hr, ih (by simp [hr]) (fun x hx => h x (List.mem_cons_of_mem c hx))]

theorem wsTokens_all_nonws (l : PyStr) (hne : l ≠ [])
    (h : ∀ c ∈ l, c.isWhitespace = false) : wsTokens l = [l] := by
  unfold wsTokens
  rw [splitWsRaw_all_nonws l hne h, List.filter_cons, List.filter_nil]
  simp [hne]

theorem wsTokens_cons_ne_nil (c : Char) (l : PyStr) (h : c.isWhitespace = false) :
    wsTokens (c :: l) ≠ [] := by
  unfold wsTokens
  rw [splitWsRaw, if_neg (by simp [h])]
  cases hs : splitWsRaw l with
  | nil => exact absurd hs (splitWsRaw_ne_nil l)
  | cons s ss => simp

theorem joinSep_cons_exists (sep x : PyStr) (xs : List PyStr) :
    ∃ t, joinSep sep (x :: xs) = x ++ t := by
  cases xs with
  | nil => exact ⟨[], by simp [joinSep]⟩
  | cons y ys => exact ⟨sep ++ joinSep sep (y :: ys), by rw [joinSep]; simp⟩

theorem insertByKey_const {α : Type} (k : Int) (a : α) :
    ∀ l : List α, insertByKey (fun _ => k) a l = a :: l := by
  intro l
  cases l with
  | nil => rfl
  | cons b bs => rw [insertByKey, if_neg (lt_irrefl k)]

theorem stableSortByKey_const {α : Type} (k : Int) :
    ∀ l : List α, stableSortByKey (fun _ => k) l = l := by
  intro l
  induction l with
  | nil => rfl
  | cons a rest ih => rw [stableSortByKey, ih, insertByKey_const]

theorem insertByKey_map {α β : Type} (key : β → Int) (f : α → β) (a : α) :
    ∀ l : List α,
      insertByKey key (f a) (l.map f) = (insertByKey (fun x => key (f x)) a l).map f := by
  intro l
  induction l with
  | nil => rfl
  | cons b bs ih =>
    rw [List.map_cons, insertByKey, insertByKey]
    by_cases h : key (f b) < key (f a)
    · rw [if_pos h, if_pos h, ih, List.map_cons]
    · rw [if_neg h, if_neg h, List.map_cons, List.map_cons]

theorem stableSortByKey_map {α β : Type} (key : β → Int) (f : α → β) :
    ∀ l : List α,
      stableSortByKey key (l.map f) = (stableSortByKey (fun x => key (f x)) l).map f := by
  intro l
  induction l with
  | nil => rfl
  | cons a rest ih =>
    rw [List.map_cons, stableSortByKey, stableSortByKey, ih, insertByKey_map]

/-- C2: evaluation of the code at the failing input.  The order parser
treats "first" as 0 and "2" as 2 without failing, and the in-memory branch
sorts the selected authors ascending by their own parsed order; but the
sheet branch key lambda reads the stale enclosing variable instead of its
parameter, so on the first title it raises NameError (modelled as none) and
on later titles it keeps the encounter order 2 before 1 instead of sorting
ascending. -/
theorem C2_order_sort_code_bug :
    pyParseOrder "first".data = 0 ∧
    pyParseOrder "2".data = 2 ∧
    inMemSortAuths
        (authsFor [⟨"B".data, "k1".data, "2".data, [], []⟩,
                   ⟨"A".data, "k1".data, "first".data, [], []⟩] "k1".data) =
      [⟨"A".data, "k1".data, "first".data, [], []⟩,
       ⟨"B".data, "k1".data, "2".data, [], []⟩] ∧
    sheetSortAuths none
        [⟨"B".data, "k1".data, "2".data, [], []⟩,
         ⟨"A".data, "k1".data, "1".data, [], []⟩] = none ∧
    sheetSortAuths (some ⟨"Z".data, "k0".data, "9".data, [], []⟩)
        [⟨"B".data, "k1".data, "2".data, [], []⟩,
         ⟨"A".data, "k1".data, "1".data, [], []⟩] =
      some [⟨"B".data, "k1".data, "2".data, [], []⟩,
            ⟨"A".data, "k1".data, "1".data, [], []⟩] := by
  exact ⟨by decide, by decide, by decide, by decide, by decide⟩

/-- C3: counterexample.  For the raw name with a two-word family segment,
the pipeline returns given "Alice De" and family "Souza", not the claimed
given "Alice" and family "De Souza": the first comma segment does not
become the family name. -/
theorem C3_name_normalization_counterexample :
    givenFamilyOf "De Souza, Alice".data =
      some ("Alice De".data, "Souza".data) ∧
    some ("Alice De".data, "Souza".data) ≠
      some ("Alice".data, "De Souza".data) := by
  exact ⟨by decide, by decide⟩

/-- C3: the claim as amended.  Empty or whitespace-only input yields
all-empty outputs without failing.  When the orcid-stripped name contains a
comma and splits into a first segment p0 and a nonempty remainder ps, the
normalized display name is the remainder joined with single spaces followed
by p0; the family output is then the last whitespace token of that display
name, so it equals p0 exactly when p0 has no internal whitespace, in which
case the given output is the remainder re-tokenized on whitespace and
joined with single spaces. -/
theorem C3_name_normalization_amended :
    (∀ s : PyStr, (∀ c ∈ s, c.isWhitespace = true) →
        normalizeAuthorName s = [] ∧ givenFamilyOf s = some ([], [])) ∧
    (∀ (raw p0 : PyStr) (ps : List PyStr),
        (stripOrcidPart raw).contains ',' = true →
        commaParts (stripOrcidPart raw) = p0 :: ps →
        ps ≠ [] →
        p0.all (fun c => !c.isWhitespace) = true →
        normalizeAuthorName raw = joinSep " ".data ps ++ " ".data ++ p0 ∧
        givenFamilyOf raw =
          some (joinSep " ".data (wsTokens (joinSep " ".data ps)), p0)) := by
  constructor
  · intro s hs
    by_cases hnil : s = []
    · subst hnil; exact ⟨rfl, rfl⟩
    · have hstrip0 : stripOrcidPart s = [] := by
        unfold stripOrcidPart
        rw [pyStrip_eq_nil_of_allws s hs]
        rfl
      have hnorm : normalizeAuthorName s = [] := by
        unfold normalizeAuthorName
        rw [if_neg hnil, hstrip0]
        rfl
      refine ⟨hnorm, ?_⟩
      unfold givenFamilyOf
      rw [hnorm]
      rfl
  · intro raw p0 ps hcontains hcp hps hp0
    have hraw : raw ≠ [] := by
      intro h
      subst h
      revert hcontains
      decide
    obtain ⟨q, qs, rfl⟩ : ∃ q qs, ps = q :: qs := by
      cases ps with
      | nil => exact absurd rfl hps
      | cons q qs => exact ⟨q, qs, rfl⟩
    have hp0mem : p0 ∈ commaParts (stripOrcidPart raw) := by
      rw [hcp]; exact List.mem_cons_self p0 _
    have hp0ne : p0 ≠ [] := (commaParts_mem _ _ hp0mem).1
    have hp0strip : pyStrip p0 = p0 := (commaParts_mem _ _ hp0mem).2
    have hqmem : q ∈ commaParts (stripOrcidPart raw) := by rw [hcp]; simp
    have hqne : q ≠ [] := (commaParts_mem _ _ hqmem).1
    have hqstrip : pyStrip q = q := (commaParts_mem _ _ hqmem).2
    obtain ⟨c0, q', hq⟩ : ∃ c0 q', q = c0 :: q' := by
      cases q with
      | nil => exact absurd rfl hqne
      | cons a b => exact ⟨a, b, rfl⟩
    have hc0 : c0.isWhitespace = false := by
      apply pyStrip_head_not_ws q c0 q'
      rw [hqstrip, hq]
    have hp0nonws : ∀ c ∈ p0, c.isWhitespace = false := by
      intro c hc
      have := List.all_eq_true.mp hp0 c hc
      simpa using this
    set D := joinSep " ".data (q :: qs) ++ " ".data ++ p0 with hD
    obtain ⟨t, hjq⟩ := joinSep_cons_exists " ".data q qs
    have hDshape : D = c0 :: (q' ++ t ++ " ".data ++ p0) := by
      rw [hD, hjq, hq]
      simp
    obtain ⟨e0, p0r, hp0r⟩ : ∃ e0 p0r, p0.reverse = e0 :: p0r := by
      cases hpr : p0.reverse with
      | nil => rw [List.reverse_eq_nil_iff] at hpr; exact absurd hpr hp0ne
      | cons a b => exact ⟨a, b, rfl⟩
    have he0 : e0.isWhitespace = false := by
      apply pyStrip_last_not_ws p0 e0 p0r
      rw [hp0strip, hp0r]
    have hDrev : ∃ w, D.reverse = e0 :: w := by
      refine ⟨p0r ++ (joinSep " ".data (q :: qs) ++ " ".data).reverse, ?_⟩
      rw [hD, List.reverse_append, hp0r]
      simp
    have hstripD : pyStrip D = D := by
      apply pyStrip_eq_self_of_ends
      · intro c rest h
        rw [hDshape, List.cons.injEq] at h
        exact h.1 ▸ hc0
      · intro c rest h
        obtain ⟨w, hw⟩ := hDrev
        rw [hw, List.cons.injEq] at h
        exact h.1 ▸ he0
    have hnorm : normalizeAuthorName raw = D := by
      unfold normalizeAuthorName
      rw [if_neg hraw, if_pos hcontains, hcp]
      exact hstripD
    have hDne : D ≠ [] := by rw [hDshape]; simp
    have hT : wsTokens D = wsTokens (joinSep " ".data (q :: qs)) ++ [p0] := by
      have hsplit : D = joinSep " ".data (q :: qs) ++ ' ' :: p0 := by
        rw [hD]
        simp
      rw [hsplit, wsTokens_append_sep ' ' (by decide),
        wsTokens_all_nonws p0 hp0ne hp0nonws]
    refine ⟨by rw [hnorm], ?_⟩
    unfold givenFamilyOf
    rw [hnorm]
    unfold splitName
    rw [if_neg hDne, hstripD, hT]
    cases hTc : wsTokens (joinSep " ".data (q :: qs)) with
    | nil =>
      exfalso
      obtain ⟨t2, hjq2⟩ := joinSep_cons_exists " ".data q qs
      rw [hjq2, hq] at hTc
      exact wsTokens_cons_ne_nil c0 (q' ++ t2) hc0 (by simpa using hTc)
    | cons t0 T1 =>
      cases T1 with
      | nil => simp [joinSep]
      | cons t1 T2 =>
        show some
            (joinSep " ".data ((t0 :: t1 :: T2 ++ [p0]).dropLast),
              (t0 :: t1 :: T2 ++ [p0]).getLastD []) = _
        rw [show (t0 :: t1 :: T2 ++ [p0] : List PyStr) = (t0 :: t1 :: T2) ++ [p0] by simp,
          List.dropLast_concat, List.getLastD_concat]

/-- C3: witness for the amended claim at whitespace-only input and at the
specification example, where the family segment is a single word. -/
theorem C3_name_normalization_amended_witness :
    normalizeAuthorName "   ".data = [] ∧
    givenFamilyOf "   ".data = some ([], []) ∧
    normalizeAuthorName "Smith, Alice Jane".data = "Alice Jane Smith".data ∧
    givenFamilyOf "Smith, Alice Jane".data =
      some ("Alice Jane".data, "Smith".data) := by
  have h1 := C3_name_normalization_amended.1 "   ".data (by decide)
  have h2 := C3_name_normalization_amended.2 "Smith, Alice Jane".data "Smith".data
    ["Alice Jane".data] (by decide) (by decide) (by decide) (by decide)
  refine ⟨h1.1, h1.2, ?_, ?_⟩
  · rw [h2.1]; decide
  · rw [h2.2]; decide

theorem foldl_max_append (A : List Nat) (x : Nat) :
    (A ++ [x]).foldl max 0 = max (A.foldl max 0) x := by
  rw [List.foldl_append]
  rfl

/-- C1: counterexample.  The in-memory create_title never deduplicates:
starting from a fresh store, two upserts with the same non-empty DOI return
the distinct ids T001 and T002 and leave two Title rows carrying that DOI,
contradicting the claim that both store implementations deduplicate by DOI
identically. -/
theorem C1_title_doi_dedup_counterexample :
    (createTitle emptyDB
        { emptyTitleInput with title := "A".data, doi := "10.1000/XYZ".data }).1 =
      "T001".data ∧
    (createTitle
        (createTitle emptyDB
          { emptyTitleInput with title := "A".data, doi := "10.1000/XYZ".data }).2
        { emptyTitleInput with title := "B".data, doi := "10.1000/XYZ".data }).1 =
      "T002".data ∧
    ("T001".data : PyStr) ≠ "T002".data ∧
    countDoi
        (createTitle
          (createTitle emptyDB
            { emptyTitleInput with title := "A".data, doi := "10.1000/XYZ".data }).2
          { emptyTitleInput with title := "B".data, doi := "10.1000/XYZ".data }).2.titles
        (pyStrip "10.1000/XYZ".data) = 2 := by
  exact ⟨by decide, by decide, by decide, by decide⟩

theorem bnot_isEmpty_of_ne_nil {l : PyStr} (h : l ≠ []) : (!l.isEmpty) = true := by
  cases l with
  | nil => exact absurd rfl h
  | cons c rest => rfl

theorem doiPred_congr (d1 d2 : PyStr) (hlow : lowerStr d1 = lowerStr d2) (r : TitleRow) :
    (!d2.isEmpty && doiMatches d2 r) = (!d1.isEmpty && doiMatches d1 r) := by
  have hlen : d1.length = d2.length := by
    have := congrArg List.length hlow
    simpa [lowerStr] using this
  have hemp : d1.isEmpty = d2.isEmpty := by
    cases d1 <;> cases d2 <;> simp_all
  unfold doiMatches
  rw [← hlow, ← hemp]

theorem sheetTitle_get (rows : List TitleRow) (t : TitleInput) (r : TitleRow)
    (h : rows.find? (fun r => !(pyStrip t.doi).isEmpty && doiMatches (pyStrip t.doi) r) =
      some r) :
    sheetCreateOrGetTitleId rows t = (r.idTitle, rows) := by
  unfold sheetCreateOrGetTitleId
  rw [h]

theorem sheetTitle_create (rows : List TitleRow) (t : TitleInput)
    (h : rows.find? (fun r => !(pyStrip t.doi).isEmpty && doiMatches (pyStrip t.doi) r) =
      none) :
    sheetCreateOrGetTitleId rows t =
      (sheetNextId (rows.map (·.idTitle)) 'T',
       rows ++ [⟨sheetNextId (rows.map (·.idTitle)) 'T', t.title, t.year, t.idVenue, t.doi,
                 t.url, t.abstract, t.typeField, t.language, t.keywords⟩]) := by
  unfold sheetCreateOrGetTitleId
  rw [h]

/-- C1: the claim as amended.  The sheet-backed create_or_get_title_id does
deduplicate by case-insensitive non-empty DOI - two upserts return the same
id and leave exactly one matching row (given that the store did not already
hold duplicates), and two empty-DOI upserts always return distinct fresh
ids.  The in-memory create_title, however, performs no DOI lookup at all:
it always returns a fresh id, so the two implementations do not behave
identically on a repeated non-empty DOI. -/
theorem C1_title_doi_dedup_amended :
    (∀ (rows : List TitleRow) (t1 t2 : TitleInput),
        pyStrip t1.doi ≠ [] →
        lowerStr (pyStrip t1.doi) = lowerStr (pyStrip t2.doi) →
        countDoi rows (pyStrip t1.doi) ≤ 1 →
        (sheetCreateOrGetTitleId rows t1).1 =
          (sheetCreateOrGetTitleId (sheetCreateOrGetTitleId rows t1).2 t2).1 ∧
        countDoi (sheetCreateOrGetTitleId (sheetCreateOrGetTitleId rows t1).2 t2).2
          (pyStrip t1.doi) = 1) ∧
    (∀ (rows : List TitleRow) (t1 t2 : TitleInput),
        pyStrip t1.doi = [] → pyStrip t2.doi = [] →
        (sheetCreateOrGetTitleId rows t1).1 ≠
          (sheetCreateOrGetTitleId (sheetCreateOrGetTitleId rows t1).2 t2).1) ∧
    (∀ (db : DB) (t1 t2 : TitleInput),
        (createTitle db t1).1 ≠ (createTitle (createTitle db t1).2 t2).1) := by
  refine ⟨?_, ?_, ?_⟩
  · intro rows t1 t2 hne hlow hcount
    have hfc : ∀ L : List TitleRow,
        L.find? (fun r => !(pyStrip t2.doi).isEmpty && doiMatches (pyStrip t2.doi) r) =
          L.find? (fun r => !(pyStrip t1.doi).isEmpty && doiMatches (pyStrip t1.doi) r) :=
      fun L => find?_congr _ _ L (fun a _ => doiPred_congr _ _ hlow a)
    cases hfind : rows.find?
        (fun r => !(pyStrip t1.doi).isEmpty && doiMatches (pyStrip t1.doi) r) with
    | some r =>
      have e1 := sheetTitle_get rows t1 r hfind
      have hfind2 : rows.find?
          (fun r => !(pyStrip t2.doi).isEmpty && doiMatches (pyStrip t2.doi) r) = some r := by
        rw [hfc rows, hfind]
      have e2 := sheetTitle_get rows t2 r hfind2
      rw [e1]
      have h22 : ((r.idTitle, rows) : PyStr × List TitleRow).2 = rows := rfl
      rw [h22, e2]
      refine ⟨rfl, ?_⟩
      show countDoi rows (pyStrip t1.doi) = 1
      have hrmem : r ∈ rows := List.mem_of_find?_eq_some hfind
      have hrp := List.find?_some hfind
      have hdm : doiMatches (pyStrip t1.doi) r = true := (Bool.and_eq_true_iff.mp hrp).2
      have hmemf : r ∈ rows.filter (doiMatches (pyStrip t1.doi)) :=
        List.mem_filter.mpr ⟨hrmem, hdm⟩
      have hpos : 0 < countDoi rows (pyStrip t1.doi) := by
        unfold countDoi
        exact List.length_pos.mpr (fun hnil => by rw [hnil] at hmemf; cases hmemf)
      omega
    | none =>
      have e1 := sheetTitle_create rows t1 hfind
      have hlen : (pyStrip t1.doi).length = (pyStrip t2.doi).length := by
        have := congrArg List.length hlow
        simpa [lowerStr] using this
      have hne2 : pyStrip t2.doi ≠ [] := by
        intro h
        apply hne
        rw [h] at hlen
        exact List.length_eq_zero.mp (by simpa using hlen)
      have hm2 : doiMatches (pyStrip t2.doi)
          ⟨sheetNextId (rows.map (·.idTitle)) 'T', t1.title, t1.year, t1.idVenue, t1.doi,
           t1.url, t1.abstract, t1.typeField, t1.language, t1.keywords⟩ = true := by
        unfold doiMatches
        show (lowerStr (pyStrip t1.doi) == lowerStr (pyStrip t2.doi)) = true
        rw [hlow]
        simp
      have hpredrow : (!(pyStrip t2.doi).isEmpty && doiMatches (pyStrip t2.doi)
          (⟨sheetNextId (rows.map (·.idTitle)) 'T', t1.title, t1.year, t1.idVenue, t1.doi,
            t1.url, t1.abstract, t1.typeField, t1.language, t1.keywords⟩ : TitleRow)) =
          true := by
        rw [Bool.and_eq_true_iff]
        exact ⟨bnot_isEmpty_of_ne_nil hne2, hm2⟩
      have hfind2 : (rows ++ [(⟨sheetNextId (rows.map (·.idTitle)) 'T', t1.title, t1.year,
            t1.idVenue, t1.doi, t1.url, t1.abstract, t1.typeField, t1.language,
            t1.keywords⟩ : TitleRow)]).find?
          (fun r => !(pyStrip t2.doi).isEmpty && doiMatches (pyStrip t2.doi) r) =
          some ⟨sheetNextId (rows.map (·.idTitle)) 'T', t1.title, t1.year, t1.idVenue,
            t1.doi, t1.url, t1.abstract, t1.typeField, t1.language, t1.keywords⟩ := by
        rw [List.find?_append, hfc rows, hfind,
          List.find?_cons_of_pos
            (p := fun r => !(pyStrip t2.doi).isEmpty && doiMatches (pyStrip t2.doi) r)
            [] hpredrow,
          Option.none_or]
      have e2 := sheetTitle_get _ t2 _ hfind2
      rw [e1]
      have h22 : ((sheetNextId (rows.map (·.idTitle)) 'T',
          rows ++ [(⟨sheetNextId (rows.map (·.idTitle)) 'T', t1.title, t1.year, t1.idVenue,
            t1.doi, t1.url, t1.abstract, t1.typeField, t1.language, t1.keywords⟩ :
              TitleRow)]) : PyStr × List TitleRow).2 = rows ++ [⟨sheetNextId
            (rows.map (·.idTitle)) 'T', t1.title, t1.year, t1.idVenue, t1.doi, t1.url,
            t1.abstract, t1.typeField, t1.language, t1.keywords⟩] := rfl
      rw [h22, e2]
      refine ⟨rfl, ?_⟩
      show countDoi (rows ++ [⟨sheetNextId (rows.map (·.idTitle)) 'T', t1.title, t1.year,
        t1.idVenue, t1.doi, t1.url, t1.abstract, t1.typeField, t1.language, t1.keywords⟩])
        (pyStrip t1.doi) = 1
      unfold countDoi
      rw [List.filter_append]
      have hz : rows.filter (doiMatches (pyStrip t1.doi)) = [] := by
        rw [List.filter_eq_nil_iff]
        intro a ha hda
        have hnot := List.find?_eq_none.mp hfind a ha
        apply hnot
        rw [Bool.and_eq_true]
        exact ⟨bnot_isEmpty_of_ne_nil hne, hda⟩
      have hm1 : doiMatches (pyStrip t1.doi)
          ⟨sheetNextId (rows.map (·.idTitle)) 'T', t1.title, t1.year, t1.idVenue, t1.doi,
           t1.url, t1.abstract, t1.typeField, t1.language, t1.keywords⟩ = true := by
        unfold doiMatches
        show (lowerStr (pyStrip t1.doi) == lowerStr (pyStrip t1.doi)) = true
        simp
      rw [hz, List.filter_cons_of_pos hm1]
      rfl
  · intro rows t1 t2 h1 h2
    have hfnone : ∀ (L : List TitleRow) (t : TitleInput), pyStrip t.doi = [] →
        L.find? (fun r => !(pyStrip t.doi).isEmpty && doiMatches (pyStrip t.doi) r) =
          none := by
      intro L t ht
      rw [List.find?_eq_none]
      intro x hx
      rw [ht]
      simp
    have e1 := sheetTitle_create rows t1 (hfnone rows t1 h1)
    have e2 := sheetTitle_create
      (rows ++ [(⟨sheetNextId (rows.map (·.idTitle)) 'T', t1.title, t1.year, t1.idVenue,
        t1.doi, t1.url, t1.abstract, t1.typeField, t1.language, t1.keywords⟩ : TitleRow)])
      t2 (hfnone _ t2 h2)
    have hTd : ('T' : Char).isDigit = false := by decide
    have hmap : (rows ++ [(⟨sheetNextId (rows.map (·.idTitle)) 'T', t1.title, t1.year,
        t1.idVenue, t1.doi, t1.url, t1.abstract, t1.typeField, t1.language,
        t1.keywords⟩ : TitleRow)]).map (·.idTitle) =
        rows.map (·.idTitle) ++ [sheetNextId (rows.map (·.idTitle)) 'T'] := by
      rw [List.map_append]
      rfl
    have hs1 := idSuffix_sheetNextId (rows.map (·.idTitle)) 'T' hTd
    have hfm : (rows.map (·.idTitle) ++ [sheetNextId (rows.map (·.idTitle)) 'T']).filterMap
        (idSuffix 'T') = (rows.map (·.idTitle)).filterMap (idSuffix 'T') ++
        [((rows.map (·.idTitle)).filterMap (idSuffix 'T')).foldl max 0 + 1] := by
      rw [List.filterMap_append, List.filterMap_cons_some hs1, List.filterMap_nil]
    intro heq
    rw [e1] at heq
    dsimp only at heq
    rw [e2] at heq
    dsimp only at heq
    rw [hmap,
      sheetNextId_eq (rows.map (·.idTitle) ++ [sheetNextId (rows.map (·.idTitle)) 'T']) 'T',
      hfm, foldl_max_append, sheetNextId_eq, List.cons.injEq] at heq
    have := fmt03_inj heq.2
    omega
  · intro db t1 t2 heq
    simp only [createTitle] at heq
    rw [List.cons.injEq] at heq
    have := fmt03_inj heq.2
    omega

/-- C1: witness for the amended claim on a fresh sheet table (same DOI up to
case, then two empty-DOI upserts) and on a fresh in-memory store. -/
theorem C1_title_doi_dedup_amended_witness :
    ((sheetCreateOrGetTitleId [] { emptyTitleInput with doi := "10.1000/XYZ".data }).1 =
      (sheetCreateOrGetTitleId
        (sheetCreateOrGetTitleId [] { emptyTitleInput with doi := "10.1000/XYZ".data }).2
        { emptyTitleInput with doi := "10.1000/xyz".data }).1 ∧
     countDoi (sheetCreateOrGetTitleId
        (sheetCreateOrGetTitleId [] { emptyTitleInput with doi := "10.1000/XYZ".data }).2
        { emptyTitleInput with doi := "10.1000/xyz".data }).2
        (pyStrip "10.1000/XYZ".data) = 1) ∧
    (sheetCreateOrGetTitleId [] emptyTitleInput).1 ≠
      (sheetCreateOrGetTitleId (sheetCreateOrGetTitleId [] emptyTitleInput).2
        emptyTitleInput).1 ∧
    (createTitle emptyDB emptyTitleInput).1 ≠
      (createTitle (createTitle emptyDB emptyTitleInput).2 emptyTitleInput).1 := by
  refine ⟨C1_title_doi_dedup_amended.1 [] _ _ (by decide) (by decide) (by decide),
    C1_title_doi_dedup_amended.2.1 [] _ _ (by decide) (by decide),
    C1_title_doi_dedup_amended.2.2 emptyDB _ _⟩

theorem runOps_cons (db : DB) (op : Op) (rest : List Op) :
    runOps db (op :: rest) = runOps (applyOp db op) rest := rfl

theorem reachable_ind (P : DB → Prop) (h0 : P emptyDB)
    (hstep : ∀ db op, P db → P (applyOp db op)) :
    ∀ db, Reachable db → P db := by
  rintro db ⟨ops, rfl⟩
  suffices h : ∀ (ops2 : List Op) (d : DB), P d → P (runOps d ops2) from h ops emptyDB h0
  intro ops2
  induction ops2 with
  | nil => intro d hd; exact hd
  | cons op rest ih => intro d hd; exact ih (applyOp d op) (hstep d op hd)

theorem getOrCreatePublisher_snd (db : DB) (n : PyStr) :
    (getOrCreatePublisher db n).2 = db ∨
    (getPublisherByName db n = none ∧
      (getOrCreatePublisher db n).2 =
        { db with counterP := db.counterP + 1,
                  publishers :=
                    db.publishers ++ [⟨'P' :: fmt03 (db.counterP + 1), pyStrip n⟩] }) := by
  cases h : getPublisherByName db n with
  | some p =>
    left
    unfold getOrCreatePublisher
    rw [h]
  | none =>
    right
    refine ⟨rfl, ?_⟩
    unfold getOrCreatePublisher
    rw [h]

theorem getOrCreateVenue_snd (db : DB) (n p : PyStr) :
    (getOrCreateVenue db n p).2 =
      { db with venues := setVenuePub db.venues (pyStrip n) p } ∨
    (getVenueByName db n = none ∧
      (getOrCreateVenue db n p).2 =
        { db with counterV := db.counterV + 1,
                  venues := db.venues ++ [⟨'V' :: fmt03 (db.counterV + 1), pyStrip n, p⟩] }) := by
  cases h : getVenueByName db n with
  | some v =>
    left
    unfold getOrCreateVenue
    rw [h]
  | none =>
    right
    refine ⟨rfl, ?_⟩
    unfold getOrCreateVenue
    rw [h]

theorem createTitle_snd (db : DB) (t : TitleInput) :
    (createTitle db t).2 =
      { db with counterT := db.counterT + 1,
                titles := db.titles ++
                  [⟨'T' :: fmt03 (db.counterT + 1), t.title, t.year, t.idVenue, t.doi, t.url,
                    t.abstract, t.typeField, t.language, t.keywords⟩] } := rfl

theorem getOrCreateAuthor_snd (db : DB) (n orc aff : PyStr) :
    (getOrCreateAuthor db n orc aff).2 =
      { db with authors := backfillAuthor db.authors (pyStrip n) orc aff } ∨
    (getAuthorByName db n = none ∧
      (getOrCreateAuthor db n orc aff).2 =
        { db with counterA := db.counterA + 1,
                  authors := db.authors ++
                    [⟨'A' :: fmt03 (db.counterA + 1), pyStrip n, orc, aff⟩] }) := by
  cases h : getAuthorByName db n with
  | some a =>
    left
    unfold getOrCreateAuthor
    rw [h]
  | none =>
    right
    refine ⟨rfl, ?_⟩
    unfold getOrCreateAuthor
    rw [h]

theorem addAuthorTitle_snd (db : DB) (aid tid : PyStr) (ord : Int) :
    addAuthorTitle db aid tid ord =
      { db with authorTitles := upsertLink db.authorTitles aid tid ord } := rfl

theorem backfillAuthor_map_id (n orc aff : PyStr) :
    ∀ l : List AuthorRow,
      (backfillAuthor l n orc aff).map (·.idAuthor) = l.map (·.idAuthor) := by
  intro l
  induction l with
  | nil => rfl
  | cons a rest ih =>
    rw [backfillAuthor]
    by_cases h : (pyStrip a.authorName == n) = true
    · rw [if_pos h]
      rfl
    · rw [if_neg h, List.map_cons, List.map_cons, ih]

theorem backfillAuthor_length (n orc aff : PyStr) :
    ∀ l : List AuthorRow, (backfillAuthor l n orc aff).length = l.length := by
  intro l
  induction l with
  | nil => rfl
  | cons a rest ih =>
    rw [backfillAuthor]
    by_cases h : (pyStrip a.authorName == n) = true
    · rw [if_pos h]
      simp
    · rw [if_neg h, List.length_cons, List.length_cons, ih]

theorem setVenuePub_map_id (n pid : PyStr) :
    ∀ l : List VenueRow, (setVenuePub l n pid).map (·.idVenue) = l.map (·.idVenue) := by
  intro l
  induction l with
  | nil => rfl
  | cons v rest ih =>
    rw [setVenuePub]
    by_cases h : (pyStrip v.venueName == n) = true
    · rw [if_pos h]
      rfl
    · rw [if_neg h, List.map_cons, List.map_cons, ih]

theorem find?_backfillAuthor (n orc aff : PyStr) :
    ∀ (l : List AuthorRow) (r : AuthorRow),
      l.find? (fun a => pyStrip a.authorName == n) = some r →
      (backfillAuthor l n orc aff).find? (fun a => pyStrip a.authorName == n) =
        some { r with
          orcid := if orc ≠ [] ∧ r.orcid = [] then orc else r.orcid,
          affiliation := if aff ≠ [] ∧ r.affiliation = [] then aff else r.affiliation } := by
  intro l
  induction l with
  | nil => intro r h; simp at h
  | cons a rest ih =>
    intro r h
    by_cases hp : (pyStrip a.authorName == n) = true
    · rw [List.find?_cons_of_pos (p := fun a : AuthorRow => pyStrip a.authorName == n) _ hp] at h
      cases h
      rw [backfillAuthor, if_pos hp]
      exact List.find?_cons_of_pos (p := fun a : AuthorRow => pyStrip a.authorName == n) _ hp
    · rw [List.find?_cons_of_neg (p := fun a : AuthorRow => pyStrip a.authorName == n) _
        (by simpa using hp)] at h
      rw [backfillAuthor, if_neg hp]
      rw [List.find?_cons_of_neg (p := fun a : AuthorRow => pyStrip a.authorName == n) _
        (by simpa using hp)]
      exact ih r h

theorem upsertLink_mem (aid tid : PyStr) (ord : Int) :
    ∀ (l : List AuthorTitleRow) (x : AuthorTitleRow), x ∈ upsertLink l aid tid ord →
      ((x.idAuthor, x.idTitle) ∈ l.map (fun r => (r.idAuthor, r.idTitle))) ∨
        (x.idAuthor = aid ∧ x.idTitle = tid) := by
  intro l
  induction l with
  | nil =>
    intro x hx
    rw [upsertLink] at hx
    rcases List.mem_singleton.mp hx with rfl
    exact Or.inr ⟨rfl, rfl⟩
  | cons r rs ih =>
    intro x hx
    rw [upsertLink] at hx
    by_cases hp : (r.idAuthor == aid && r.idTitle == tid) = true
    · rw [if_pos hp] at hx
      rcases List.mem_cons.mp hx with rfl | hmem
      · left
        rw [List.map_cons]
        exact List.mem_cons_self _ _
      · left
        rw [List.map_cons]
        exact List.mem_cons_of_mem _ (List.mem_map_of_mem _ hmem)
    · rw [if_neg hp] at hx
      rcases List.mem_cons.mp hx with rfl | hmem
      · left
        rw [List.map_cons]
        exact List.mem_cons_self _ _
      · rcases ih x hmem with h1 | h1
        · left
          rw [List.map_cons]
          exact List.mem_cons_of_mem _ h1
        · exact Or.inr h1

theorem upsertLink_pairwise (aid tid : PyStr) (ord : Int) :
    ∀ l : List AuthorTitleRow,
      l.Pairwise (fun r1 r2 => ¬(r1.idAuthor = r2.idAuthor ∧ r1.idTitle = r2.idTitle)) →
      (upsertLink l aid tid ord).Pairwise
        (fun r1 r2 => ¬(r1.idAuthor = r2.idAuthor ∧ r1.idTitle = r2.idTitle)) := by
  intro l
  induction l with
  | nil => intro _; simp [upsertLink]
  | cons r rs ih =>
    intro h
    have hhead := (List.pairwise_cons.mp h).1
    have htail := (List.pairwise_cons.mp h).2
    rw [upsertLink]
    by_cases hp : (r.idAuthor == aid && r.idTitle == tid) = true
    · rw [if_pos hp]
      rw [List.pairwise_cons]
      refine ⟨?_, htail⟩
      intro x hx hcontra
      exact hhead x hx ⟨hcontra.1, hcontra.2⟩
    · rw [if_neg hp]
      rw [List.pairwise_cons]
      refine ⟨?_, ih htail⟩
      intro x hx hcontra
      rcases upsertLink_mem aid tid ord rs x hx with h1 | h1
      · obtain ⟨y, hy, hye⟩ := List.mem_map.mp h1
        apply hhead y hy
        rw [Prod.mk.injEq] at hye
        exact ⟨hcontra.1.trans hye.1.symm, hcontra.2.trans hye.2.symm⟩
      · apply hp
        rw [Bool.and_eq_true_iff]
        constructor
        · rw [beq_iff_eq]
          exact hcontra.1.trans h1.1
        · rw [beq_iff_eq]
          exact hcontra.2.trans h1.2

theorem upsertLink_length_of_found (aid tid : PyStr) (ord : Int) :
    ∀ (l : List AuthorTitleRow) (r : AuthorTitleRow),
      l.find? (fun x => x.idAuthor == aid && x.idTitle == tid) = some r →
      (upsertLink l aid tid ord).length = l.length := by
  intro l
  induction l with
  | nil => intro r h; simp at h
  | cons x xs ih =>
    intro r h
    rw [upsertLink]
    by_cases hp : (x.idAuthor == aid && x.idTitle == tid) = true
    · rw [if_pos hp]
      simp
    · rw [List.find?_cons_of_neg (p := fun x : AuthorTitleRow =>
        x.idAuthor == aid && x.idTitle == tid) _ (by simpa using hp)] at h
      rw [if_neg hp, List.length_cons, List.length_cons, ih r h]

theorem find?_upsertLink (aid tid : PyStr) (ord : Int) :
    ∀ (l : List AuthorTitleRow) (r : AuthorTitleRow),
      l.find? (fun x => x.idAuthor == aid && x.idTitle == tid) = some r →
      (upsertLink l aid tid ord).find? (fun x => x.idAuthor == aid && x.idTitle == tid) =
        some { r with order := pyIntStr ord } := by
  intro l
  induction l with
  | nil => intro r h; simp at h
  | cons x xs ih =>
    intro r h
    by_cases hp : (x.idAuthor == aid && x.idTitle == tid) = true
    · rw [List.find?_cons_of_pos (p := fun x : AuthorTitleRow =>
        x.idAuthor == aid && x.idTitle == tid) _ hp] at h
      cases h
      rw [upsertLink, if_pos hp]
      exact List.find?_cons_of_pos (p := fun x : AuthorTitleRow =>
        x.idAuthor == aid && x.idTitle == tid) _ hp
    · rw [List.find?_cons_of_neg (p := fun x : AuthorTitleRow =>
        x.idAuthor == aid && x.idTitle == tid) _ (by simpa using hp)] at h
      rw [upsertLink, if_neg hp]
      rw [List.find?_cons_of_neg (p := fun x : AuthorTitleRow =>
        x.idAuthor == aid && x.idTitle == tid) _ (by simpa using hp)]
      exact ih r h

theorem upsertLink_orders (aid tid : PyStr) (ord : Int) :
    ∀ l : List AuthorTitleRow,
      (∀ r ∈ l, ∃ k : Int, r.order = pyIntStr k) →
      ∀ x ∈ upsertLink l aid tid ord, ∃ k : Int, x.order = pyIntStr k := by
  intro l
  induction l with
  | nil =>
    intro _ x hx
    rw [upsertLink] at hx
    rcases List.mem_singleton.mp hx with rfl
    exact ⟨ord, rfl⟩
  | cons r rs ih =>
    intro h x hx
    rw [upsertLink] at hx
    by_cases hp : (r.idAuthor == aid && r.idTitle == tid) = true
    · rw [if_pos hp] at hx
      rcases List.mem_cons.mp hx with rfl | hmem
      · exact ⟨ord, rfl⟩
      · exact h x (List.mem_cons_of_mem r hmem)
    · rw [if_neg hp] at hx
      rcases List.mem_cons.mp hx with rfl | hmem
      · exact h _ (List.mem_cons_self _ _)
      · exact ih (fun y hy => h y (List.mem_cons_of_mem r hy)) x hmem

theorem idsWellFormed_append (ids : List PyStr) (c : Char) (bound : Nat)
    (h : idsWellFormed ids c bound) :
    idsWellFormed (ids ++ [c :: fmt03 (bound + 1)]) c (bound + 1) := by
  obtain ⟨ks, hmap, hchain, hbnd⟩ := h
  refine ⟨ks ++ [bound + 1], ?_, ?_, ?_⟩
  · rw [List.map_append, hmap]
    rfl
  · rw [List.chain'_append]
    refine ⟨hchain, List.chain'_singleton _, ?_⟩
    intro x hx y hy
    have hxm : x ∈ ks := List.mem_of_mem_getLast? hx
    have := (hbnd x hxm).2
    have hy2 : bound + 1 = y := by simpa using hy
    omega
  · intro k hk
    rcases List.mem_append.mp hk with h1 | h1
    · have := hbnd k h1
      omega
    · have : k = bound + 1 := by simpa using h1
      omega

theorem idsWellFormed_bound_mono (ids : List PyStr) (c : Char) (b b2 : Nat)
    (hle : b ≤ b2) (h : idsWellFormed ids c b) : idsWellFormed ids c b2 := by
  obtain ⟨ks, hmap, hchain, hbnd⟩ := h
  refine ⟨ks, hmap, hchain, ?_⟩
  intro k hk
  have := hbnd k hk
  omega

theorem storeInv_applyOp (db : DB) (op : Op) (h : storeInv db) :
    storeInv (applyOp db op) := by
  obtain ⟨hP, hV, hT, hA, hPn, hLp, hLo⟩ := h
  cases op with
  | pub n =>
    show storeInv (getOrCreatePublisher db n).2
    rcases getOrCreatePublisher_snd db n with he | ⟨hf, he⟩
    · rw [he]
      exact ⟨hP, hV, hT, hA, hPn, hLp, hLo⟩
    · rw [he]
      refine ⟨?_, hV, hT, hA, ?_, hLp, hLo⟩
      · show idsWellFormed
          ((db.publishers ++ [(⟨'P' :: fmt03 (db.counterP + 1), pyStrip n⟩ :
            PublisherRow)]).map (fun x => x.idPublisher)) 'P' (db.counterP + 1)
        rw [List.map_append]
        exact idsWellFormed_append _ 'P' db.counterP hP
      · show (db.publishers ++ [(⟨'P' :: fmt03 (db.counterP + 1), pyStrip n⟩ :
          PublisherRow)]).Pairwise
          (fun p q => pyStrip p.publisherName ≠ pyStrip q.publisherName)
        rw [List.pairwise_append]
        refine ⟨hPn, by simp, ?_⟩
        intro a ha b hb
        have hb2 : b = (⟨'P' :: fmt03 (db.counterP + 1), pyStrip n⟩ : PublisherRow) := by
          simpa using hb
        subst hb2
        show pyStrip a.publisherName ≠ pyStrip (pyStrip n)
        rw [pyStrip_idem]
        intro hcontra
        unfold getPublisherByName at hf
        apply List.find?_eq_none.mp hf a ha
        rw [beq_iff_eq]
        exact hcontra
  | venue n p =>
    show storeInv (getOrCreateVenue db n p).2
    rcases getOrCreateVenue_snd db n p with he | ⟨_, he⟩
    · rw [he]
      refine ⟨hP, ?_, hT, hA, hPn, hLp, hLo⟩
      show idsWellFormed ((setVenuePub db.venues (pyStrip n) p).map (fun x => x.idVenue))
        'V' db.counterV
      rw [setVenuePub_map_id]
      exact hV
    · rw [he]
      refine ⟨hP, ?_, hT, hA, hPn, hLp, hLo⟩
      show idsWellFormed
        ((db.venues ++ [(⟨'V' :: fmt03 (db.counterV + 1), pyStrip n, p⟩ : VenueRow)]).map
          (fun x => x.idVenue)) 'V' (db.counterV + 1)
      rw [List.map_append]
      exact idsWellFormed_append _ 'V' db.counterV hV
  | title t =>
    show storeInv (createTitle db t).2
    rw [createTitle_snd]
    refine ⟨hP, hV, ?_, hA, hPn, hLp, hLo⟩
    show idsWellFormed
      ((db.titles ++ [(⟨'T' :: fmt03 (db.counterT + 1), t.title, t.year, t.idVenue, t.doi,
        t.url, t.abstract, t.typeField, t.language, t.keywords⟩ : TitleRow)]).map
        (fun x => x.idTitle)) 'T' (db.counterT + 1)
    rw [List.map_append]
    exact idsWellFormed_append _ 'T' db.counterT hT
  | author n orc aff =>
    show storeInv (getOrCreateAuthor db n orc aff).2
    rcases getOrCreateAuthor_snd db n orc aff with he | ⟨_, he⟩
    · rw [he]
      refine ⟨hP, hV, hT, ?_, hPn, hLp, hLo⟩
      show idsWellFormed ((backfillAuthor db.authors (pyStrip n) orc aff).map
        (fun x => x.idAuthor)) 'A' db.counterA
      rw [backfillAuthor_map_id]
      exact hA
    · rw [he]
      refine ⟨hP, hV, hT, ?_, hPn, hLp, hLo⟩
      show idsWellFormed
        ((db.authors ++ [(⟨'A' :: fmt03 (db.counterA + 1), pyStrip n, orc, aff⟩ :
          AuthorRow)]).map (fun x => x.idAuthor)) 'A' (db.counterA + 1)
      rw [List.map_append]
      exact idsWellFormed_append _ 'A' db.counterA hA
  | link aid tid ord =>
    show storeInv (addAuthorTitle db aid tid ord)
    rw [addAuthorTitle_snd]
    refine ⟨hP, hV, hT, hA, hPn, ?_, ?_⟩
    · exact upsertLink_pairwise aid tid ord db.authorTitles hLp
    · exact upsertLink_orders aid tid ord db.authorTitles hLo

theorem reachable_storeInv : ∀ db : DB, Reachable db → storeInv db := by
  apply reachable_ind
  · refine ⟨⟨[], rfl, List.chain'_nil, by simp⟩, ⟨[], rfl, List.chain'_nil, by simp⟩,
      ⟨[], rfl, List.chain'_nil, by simp⟩, ⟨[], rfl, List.chain'_nil, by simp⟩,
      List.Pairwise.nil, List.Pairwise.nil, by intro r hr; simp [emptyDB] at hr⟩
  · exact storeInv_applyOp

theorem getOrCreateAuthor_hit (db : DB) (name orc aff : PyStr) (r : AuthorRow)
    (h : getAuthorByName db name = some r) :
    getOrCreateAuthor db name orc aff =
      (r.idAuthor,
       { db with authors := backfillAuthor db.authors (pyStrip name) orc aff }) := by
  unfold getOrCreateAuthor
  rw [h]

/-- C6: author backfill is first-write-wins.  On a name hit the in-memory
get_or_create_author returns the id of the found row, appends no row, and
rewrites the found row so that orcid and affiliation are overwritten exactly
when the stored field was empty and the argument nonempty; in particular a
stored nonempty ORCID survives any later call unchanged.  The sheet-backed
variant returns the stored id and leaves the table rows untouched. -/
theorem C6_author_backfill :
    (∀ (db : DB) (name orc aff : PyStr) (r : AuthorRow),
        getAuthorByName db name = some r →
        (getOrCreateAuthor db name orc aff).1 = r.idAuthor ∧
        (getOrCreateAuthor db name orc aff).2.authors.length = db.authors.length ∧
        getAuthorByName (getOrCreateAuthor db name orc aff).2 name =
          some { r with
            orcid := if orc ≠ [] ∧ r.orcid = [] then orc else r.orcid,
            affiliation := if aff ≠ [] ∧ r.affiliation = [] then aff else r.affiliation }) ∧
    (∀ (db : DB) (name orc aff : PyStr) (r : AuthorRow),
        getAuthorByName db name = some r → r.orcid ≠ [] →
        getAuthorByName (getOrCreateAuthor db name orc aff).2 name =
          some { r with
            affiliation := if aff ≠ [] ∧ r.affiliation = [] then aff else r.affiliation }) ∧
    (∀ (rows : List AuthorRow) (name orc aff : PyStr) (r : AuthorRow),
        rows.find? (fun a => pyStrip a.authorName == pyStrip name) = some r →
        sheetGetOrCreateAuthor rows name orc aff = (r.idAuthor, rows)) := by
  have main : ∀ (db : DB) (name orc aff : PyStr) (r : AuthorRow),
      getAuthorByName db name = some r →
      (getOrCreateAuthor db name orc aff).1 = r.idAuthor ∧
      (getOrCreateAuthor db name orc aff).2.authors.length = db.authors.length ∧
      getAuthorByName (getOrCreateAuthor db name orc aff).2 name =
        some { r with
          orcid := if orc ≠ [] ∧ r.orcid = [] then orc else r.orcid,
          affiliation := if aff ≠ [] ∧ r.affiliation = [] then aff else r.affiliation } := by
    intro db name orc aff r h
    have he := getOrCreateAuthor_hit db name orc aff r h
    rw [he]
    refine ⟨rfl, ?_, ?_⟩
    · show (backfillAuthor db.authors (pyStrip name) orc aff).length = db.authors.length
      exact backfillAuthor_length _ _ _ _
    · show (backfillAuthor db.authors (pyStrip name) orc aff).find?
        (fun a => pyStrip a.authorName == pyStrip name) = _
      unfold getAuthorByName at h
      exact find?_backfillAuthor (pyStrip name) orc aff db.authors r h
  refine ⟨main, ?_, ?_⟩
  · intro db name orc aff r h hor
    have h3 := (main db name orc aff r h).2.2
    rw [h3]
    have hite : (if orc ≠ [] ∧ r.orcid = [] then orc else r.orcid) = r.orcid := by
      rw [if_neg]
      intro hcon
      exact hor hcon.2
    rw [hite]
  · intro rows name orc aff r h
    unfold sheetGetOrCreateAuthor
    rw [h]

/-- C6: witness.  Create Alice with ORCID X, then call again with ORCID Y:
the call returns the existing id A001, adds no row, and the stored ORCID is
still X; the sheet-backed variant likewise returns the stored id and leaves
the rows unchanged. -/
theorem C6_author_backfill_witness :
    (getOrCreateAuthor (getOrCreateAuthor emptyDB "Alice".data "X".data []).2
        "Alice".data "Y".data []).1 = "A001".data ∧
    (getOrCreateAuthor (getOrCreateAuthor emptyDB "Alice".data "X".data []).2
        "Alice".data "Y".data []).2.authors.length =
      (getOrCreateAuthor emptyDB "Alice".data "X".data []).2.authors.length ∧
    getAuthorByName (getOrCreateAuthor
        (getOrCreateAuthor emptyDB "Alice".data "X".data []).2
        "Alice".data "Y".data []).2 "Alice".data =
      some ⟨"A001".data, "Alice".data, "X".data, []⟩ ∧
    sheetGetOrCreateAuthor [⟨"A001".data, "Alice".data, "X".data, []⟩]
        "Alice".data "Y".data [] =
      ("A001".data, [⟨"A001".data, "Alice".data, "X".data, []⟩]) := by
  have h1 := C6_author_backfill.1 (getOrCreateAuthor emptyDB "Alice".data "X".data []).2
    "Alice".data "Y".data [] ⟨"A001".data, "Alice".data, "X".data, []⟩ (by decide)
  have h2 := C6_author_backfill.2.2 [⟨"A001".data, "Alice".data, "X".data, []⟩]
    "Alice".data "Y".data [] ⟨"A001".data, "Alice".data, "X".data, []⟩ (by decide)
  exact ⟨h1.1, h1.2.1, h1.2.2, h2⟩

/-- C7: counterexample.  In the sheet-backed variant, linking the same pair
twice with orders 1 then 2 leaves the single stored junction row with Order
"1": the update of the repeat call is applied only to the transient record
list returned by get_all_records and never written back, so the row does
not hold the latest order. -/
theorem C7_junction_counterexample :
    sheetEnsureLink (sheetEnsureLink [] "A001".data "T001".data 1)
        "A001".data "T001".data 2 =
      [⟨"A001".data, "T001".data, "1".data⟩] ∧
    ("1".data : PyStr) ≠ "2".data :=
  ⟨by decide, by decide⟩

/-- C7: the claim as amended.  In every reachable in-memory store state
there is at most one junction row per (author, title) pair; re-linking an
existing pair in the in-memory store appends nothing and overwrites that
row's order with the latest value; in the sheet-backed variant a repeat
link also appends nothing, but the stored row is left entirely unchanged
because the order update is never written back. -/
theorem C7_junction_amended :
    (∀ db : DB, Reachable db → linkPairsUnique db) ∧
    (∀ (db : DB) (aid tid : PyStr) (ord : Int) (r : AuthorTitleRow),
        db.authorTitles.find? (fun x => x.idAuthor == aid && x.idTitle == tid) = some r →
        (addAuthorTitle db aid tid ord).authorTitles.length = db.authorTitles.length ∧
        (addAuthorTitle db aid tid ord).authorTitles.find?
            (fun x => x.idAuthor == aid && x.idTitle == tid) =
          some { r with order := pyIntStr ord }) ∧
    (∀ (rows : List AuthorTitleRow) (aid tid : PyStr) (ord : Int) (r : AuthorTitleRow),
        rows.find? (fun x => x.idAuthor == aid && x.idTitle == tid) = some r →
        sheetEnsureLink rows aid tid ord = rows) := by
  refine ⟨?_, ?_, ?_⟩
  · intro db hre
    exact (reachable_storeInv db hre).2.2.2.2.2.1
  · intro db aid tid ord r h
    rw [addAuthorTitle_snd]
    exact ⟨upsertLink_length_of_found aid tid ord db.authorTitles r h,
      find?_upsertLink aid tid ord db.authorTitles r h⟩
  · intro rows aid tid ord r h
    unfold sheetEnsureLink
    rw [h]

/-- C7: witness.  A store with one link A001-T001 of order 2 re-linked with
order 1 keeps a single row, now with order 1; the reachable-state pair
uniqueness holds at that store; the sheet variant with an existing pair
returns the table unchanged. -/
theorem C7_junction_amended_witness :
    linkPairsUnique (runOps emptyDB
      [Op.author "Alice".data [] [], Op.title emptyTitleInput,
       Op.link "A001".data "T001".data 2, Op.link "A001".data "T001".data 1]) ∧
    (addAuthorTitle (addAuthorTitle emptyDB "A001".data "T001".data 2)
        "A001".data "T001".data 1).authorTitles.length =
      (addAuthorTitle emptyDB "A001".data "T001".data 2).authorTitles.length ∧
    (addAuthorTitle (addAuthorTitle emptyDB "A001".data "T001".data 2)
        "A001".data "T001".data 1).authorTitles.find?
        (fun x => x.idAuthor == "A001".data && x.idTitle == "T001".data) =
      some ⟨"A001".data, "T001".data, "1".data⟩ ∧
    sheetEnsureLink [⟨"A001".data, "T001".data, "2".data⟩] "A001".data "T001".data 1 =
      [⟨"A001".data, "T001".data, "2".data⟩] := by
  have h1 := C7_junction_amended.1 _ ⟨[Op.author "Alice".data [] [], Op.title emptyTitleInput,
    Op.link "A001".data "T001".data 2, Op.link "A001".data "T001".data 1], rfl⟩
  have h2 := C7_junction_amended.2.1 (addAuthorTitle emptyDB "A001".data "T001".data 2)
    "A001".data "T001".data 1 ⟨"A001".data, "T001".data, "2".data⟩ (by decide)
  have h3 := C7_junction_amended.2.2 [⟨"A001".data, "T001".data, "2".data⟩]
    "A001".data "T001".data 1 ⟨"A001".data, "T001".data, "2".data⟩ (by decide)
  exact ⟨h1, h2.1, h2.2, h3⟩

theorem getOrCreatePublisher_hit (db : DB) (name : PyStr) (r : PublisherRow)
    (h : getPublisherByName db name = some r) :
    getOrCreatePublisher db name = (r.idPublisher, db) := by
  unfold getOrCreatePublisher
  rw [h]

theorem getOrCreatePublisher_miss (db : DB) (name : PyStr)
    (h : getPublisherByName db name = none) :
    getOrCreatePublisher db name =
      ('P' :: fmt03 (db.counterP + 1),
       { db with counterP := db.counterP + 1,
                 publishers := db.publishers ++
                   [⟨'P' :: fmt03 (db.counterP + 1), pyStrip name⟩] }) := by
  unfold getOrCreatePublisher
  rw [h]

theorem pub_filter_le_one :
    ∀ (l : List PublisherRow) (n : PyStr),
      l.Pairwise (fun p q => pyStrip p.publisherName ≠ pyStrip q.publisherName) →
      (l.filter (fun p => pyStrip p.publisherName == pyStrip n)).length ≤ 1 := by
  intro l n
  induction l with
  | nil => intro _; simp
  | cons p rest ih =>
    intro hl
    have hhead := (List.pairwise_cons.mp hl).1
    have htail := (List.pairwise_cons.mp hl).2
    by_cases hp : (pyStrip p.publisherName == pyStrip n) = true
    · rw [List.filter_cons_of_pos (p := fun p : PublisherRow =>
        pyStrip p.publisherName == pyStrip n) hp]
      have hz : rest.filter (fun q => pyStrip q.publisherName == pyStrip n) = [] := by
        rw [List.filter_eq_nil_iff]
        intro q hq hqp
        apply hhead q hq
        rw [beq_iff_eq] at hp hqp
        exact hp.trans hqp.symm
      rw [hz]
      simp
    · rw [List.filter_cons_of_neg (p := fun p : PublisherRow =>
        pyStrip p.publisherName == pyStrip n) (by simpa using hp)]
      exact ih htail

/-- C8: get-or-create for publishers is idempotent on every reachable store
state: the second call returns the same id as the first, changes nothing,
and exactly one Publisher row with that (stripped) name remains.  The same
holds for the sheet-backed variant given a table without duplicate stripped
names. -/
theorem C8_publisher_idempotent :
    (∀ db : DB, Reachable db → ∀ name : PyStr,
      (getOrCreatePublisher db name).1 =
        (getOrCreatePublisher (getOrCreatePublisher db name).2 name).1 ∧
      (getOrCreatePublisher (getOrCreatePublisher db name).2 name).2 =
        (getOrCreatePublisher db name).2 ∧
      ((getOrCreatePublisher db name).2.publishers.filter
        (fun p => pyStrip p.publisherName == pyStrip name)).length = 1) ∧
    (∀ (rows : List PublisherRow) (name : PyStr),
      rows.Pairwise (fun p q => pyStrip p.publisherName ≠ pyStrip q.publisherName) →
      (sheetGetOrCreatePublisher rows name).1 =
        (sheetGetOrCreatePublisher (sheetGetOrCreatePublisher rows name).2 name).1 ∧
      ((sheetGetOrCreatePublisher rows name).2.filter
        (fun p => pyStrip p.publisherName == pyStrip name)).length = 1) := by
  constructor
  · intro db hre name
    have hPn := (reachable_storeInv db hre).2.2.2.2.1
    cases hf : getPublisherByName db name with
    | some r =>
      have e1 := getOrCreatePublisher_hit db name r hf
      rw [e1]
      have h22 : ((r.idPublisher, db) : PyStr × DB).2 = db := rfl
      rw [h22, e1]
      refine ⟨rfl, rfl, ?_⟩
      show (db.publishers.filter (fun p => pyStrip p.publisherName == pyStrip name)).length
        = 1
      unfold getPublisherByName at hf
      have hmem : r ∈ db.publishers.filter
          (fun p => pyStrip p.publisherName == pyStrip name) :=
        List.mem_filter.mpr ⟨List.mem_of_find?_eq_some hf,
          List.find?_some (p := fun p : PublisherRow =>
            pyStrip p.publisherName == pyStrip name) hf⟩
      have hle := pub_filter_le_one db.publishers name hPn
      have hpos : 0 < (db.publishers.filter
          (fun p => pyStrip p.publisherName == pyStrip name)).length :=
        List.length_pos.mpr (fun hnil => by rw [hnil] at hmem; cases hmem)
      omega
    | none =>
      have e1 := getOrCreatePublisher_miss db name hf
      have hnew : (pyStrip (pyStrip name) == pyStrip name) = true := by
        rw [pyStrip_idem]
        simp
      have hfind2 : getPublisherByName
          { db with counterP := db.counterP + 1,
                    publishers := db.publishers ++
                      [⟨'P' :: fmt03 (db.counterP + 1), pyStrip name⟩] } name =
          some ⟨'P' :: fmt03 (db.counterP + 1), pyStrip name⟩ := by
        show (db.publishers ++ [(⟨'P' :: fmt03 (db.counterP + 1), pyStrip name⟩ :
          PublisherRow)]).find? (fun p => pyStrip p.publisherName == pyStrip name) = _
        unfold getPublisherByName at hf
        rw [List.find?_append, hf,
          List.find?_cons_of_pos (p := fun p : PublisherRow =>
            pyStrip p.publisherName == pyStrip name) [] hnew,
          Option.none_or]
      have e2 := getOrCreatePublisher_hit _ name _ hfind2
      rw [e1]
      have h22 : (('P' :: fmt03 (db.counterP + 1),
          { db with counterP := db.counterP + 1,
                    publishers := db.publishers ++
                      [⟨'P' :: fmt03 (db.counterP + 1), pyStrip name⟩] }) : PyStr × DB).2 =
          { db with counterP := db.counterP + 1,
                    publishers := db.publishers ++
                      [⟨'P' :: fmt03 (db.counterP + 1), pyStrip name⟩] } := rfl
      rw [h22, e2]
      refine ⟨rfl, rfl, ?_⟩
      show ((db.publishers ++ [(⟨'P' :: fmt03 (db.counterP + 1), pyStrip name⟩ :
        PublisherRow)]).filter (fun p => pyStrip p.publisherName == pyStrip name)).length = 1
      rw [List.filter_append]
      have hz : db.publishers.filter (fun p => pyStrip p.publisherName == pyStrip name) =
          [] := by
        rw [List.filter_eq_nil_iff]
        intro a ha hap
        unfold getPublisherByName at hf
        exact List.find?_eq_none.mp hf a ha hap
      rw [hz, List.filter_cons_of_pos (p := fun p : PublisherRow =>
        pyStrip p.publisherName == pyStrip name) hnew]
      rfl
  · intro rows name hPn
    cases hf : rows.find? (fun p => pyStrip p.publisherName == pyStrip name) with
    | some r =>
      have e1 : sheetGetOrCreatePublisher rows name = (r.idPublisher, rows) := by
        unfold sheetGetOrCreatePublisher
        rw [hf]
      rw [e1]
      have h22 : ((r.idPublisher, rows) : PyStr × List PublisherRow).2 = rows := rfl
      rw [h22, e1]
      refine ⟨rfl, ?_⟩
      show (rows.filter (fun p => pyStrip p.publisherName == pyStrip name)).length = 1
      have hmem : r ∈ rows.filter (fun p => pyStrip p.publisherName == pyStrip name) :=
        List.mem_filter.mpr ⟨List.mem_of_find?_eq_some hf,
          List.find?_some (p := fun p : PublisherRow =>
            pyStrip p.publisherName == pyStrip name) hf⟩
      have hle := pub_filter_le_one rows name hPn
      have hpos : 0 < (rows.filter
          (fun p => pyStrip p.publisherName == pyStrip name)).length :=
        List.length_pos.mpr (fun hnil => by rw [hnil] at hmem; cases hmem)
      omega
    | none =>
      have e1 : sheetGetOrCreatePublisher rows name =
          (sheetNextId (rows.map (·.idPublisher)) 'P',
           rows ++ [⟨sheetNextId (rows.map (·.idPublisher)) 'P', pyStrip name⟩]) := by
        unfold sheetGetOrCreatePublisher
        rw [hf]
      have hnew : (pyStrip (pyStrip name) == pyStrip name) = true := by
        rw [pyStrip_idem]
        simp
      have hfind2 : (rows ++ [(⟨sheetNextId (rows.map (·.idPublisher)) 'P',
          pyStrip name⟩ : PublisherRow)]).find?
          (fun p => pyStrip p.publisherName == pyStrip name) =
          some ⟨sheetNextId (rows.map (·.idPublisher)) 'P', pyStrip name⟩ := by
        rw [List.find?_append, hf,
          List.find?_cons_of_pos (p := fun p : PublisherRow =>
            pyStrip p.publisherName == pyStrip name) [] hnew,
          Option.none_or]
      have e2 : sheetGetOrCreatePublisher (rows ++ [(⟨sheetNextId
          (rows.map (·.idPublisher)) 'P', pyStrip name⟩ : PublisherRow)]) name =
          ((⟨sheetNextId (rows.map (·.idPublisher)) 'P', pyStrip name⟩ :
            PublisherRow).idPublisher,
           rows ++ [⟨sheetNextId (rows.map (·.idPublisher)) 'P', pyStrip name⟩]) := by
        unfold sheetGetOrCreatePublisher
        rw [hfind2]
      rw [e1]
      have h22 : ((sheetNextId (rows.map (·.idPublisher)) 'P',
          rows ++ [(⟨sheetNextId (rows.map (·.idPublisher)) 'P', pyStrip name⟩ :
            PublisherRow)]) : PyStr × List PublisherRow).2 =
          rows ++ [⟨sheetNextId (rows.map (·.idPublisher)) 'P', pyStrip name⟩] := rfl
      rw [h22, e2]
      refine ⟨rfl, ?_⟩
      show ((rows ++ [(⟨sheetNextId (rows.map (·.idPublisher)) 'P', pyStrip name⟩ :
        PublisherRow)]).filter (fun p => pyStrip p.publisherName == pyStrip name)).length = 1
      rw [List.filter_append]
      have hz : rows.filter (fun p => pyStrip p.publisherName == pyStrip name) = [] := by
        rw [List.filter_eq_nil_iff]
        intro a ha hap
        exact List.find?_eq_none.mp hf a ha hap
      rw [hz, List.filter_cons_of_pos (p := fun p : PublisherRow =>
        pyStrip p.publisherName == pyStrip name) hnew]
      rfl

/-- C8: witness on a fresh store and on an empty sheet table. -/
theorem C8_publisher_idempotent_witness :
    ((getOrCreatePublisher emptyDB "ACME".data).1 =
      (getOrCreatePublisher (getOrCreatePublisher emptyDB "ACME".data).2 "ACME".data).1 ∧
     ((getOrCreatePublisher emptyDB "ACME".data).2.publishers.filter
       (fun p => pyStrip p.publisherName == pyStrip "ACME".data)).length = 1) ∧
    (sheetGetOrCreatePublisher [] "ACME".data).1 =
      (sheetGetOrCreatePublisher (sheetGetOrCreatePublisher [] "ACME".data).2
        "ACME".data).1 := by
  have h1 := C8_publisher_idempotent.1 emptyDB ⟨[], rfl⟩ "ACME".data
  have h2 := C8_publisher_idempotent.2 [] "ACME".data List.Pairwise.nil
  exact ⟨⟨h1.1, h1.2.2⟩, h2.1⟩

theorem idsWellFormed_pairwise_ne (ids : List PyStr) (c : Char) (b : Nat)
    (h : idsWellFormed ids c b) : ids.Pairwise (· ≠ ·) := by
  obtain ⟨ks, rfl, hchain, -⟩ := h
  have hp : ks.Pairwise (· < ·) := List.chain'_iff_pairwise.mp hchain
  refine List.Pairwise.map _ ?_ hp
  intro a b hab heq
  rw [List.cons.injEq] at heq
  exact absurd (fmt03_inj heq.2) (Nat.ne_of_lt hab)

theorem wf_cross_ne {ids1 ids2 : List PyStr} {c1 c2 : Char} {b1 b2 : Nat}
    (h1 : idsWellFormed ids1 c1 b1) (h2 : idsWellFormed ids2 c2 b2) (hc : c1 ≠ c2) :
    ∀ a ∈ ids1, ∀ b ∈ ids2, a ≠ b := by
  obtain ⟨ks1, rfl, -, -⟩ := h1
  obtain ⟨ks2, rfl, -, -⟩ := h2
  intro a ha b hb
  obtain ⟨k1, -, rfl⟩ := List.mem_map.mp ha
  obtain ⟨k2, -, rfl⟩ := List.mem_map.mp hb
  intro heq
  rw [List.cons.injEq] at heq
  exact hc heq.1

/-- C5: in every reachable in-memory store state each table's id column
consists of the prefix letter followed by the 03d-padded counter values,
with strictly increasing numeric suffixes in assignment order, and no id is
ever repeated within or across tables; and the sheet-side _next_id always
produces an id that is absent from the existing ids, with a numeric suffix
strictly above every parseable existing suffix. -/
theorem C5_id_generation :
    (∀ db : DB, Reachable db →
      (idsWellFormed (db.publishers.map (·.idPublisher)) 'P' db.counterP ∧
       idsWellFormed (db.venues.map (·.idVenue)) 'V' db.counterV ∧
       idsWellFormed (db.titles.map (·.idTitle)) 'T' db.counterT ∧
       idsWellFormed (db.authors.map (·.idAuthor)) 'A' db.counterA) ∧
      (allIds db).Pairwise (· ≠ ·)) ∧
    (∀ (ids : List PyStr) (c : Char), c.isDigit = false →
      sheetNextId ids c ∉ ids ∧
      ∀ s ∈ ids, ∀ k, idSuffix c s = some k →
        idSuffix c (sheetNextId ids c) =
          some ((ids.filterMap (idSuffix c)).foldl max 0 + 1) ∧
        k < (ids.filterMap (idSuffix c)).foldl max 0 + 1) := by
  constructor
  · intro db hre
    obtain ⟨hP, hV, hT, hA, -, -, -⟩ := reachable_storeInv db hre
    refine ⟨⟨hP, hV, hT, hA⟩, ?_⟩
    unfold allIds
    have pP := idsWellFormed_pairwise_ne _ _ _ hP
    have pV := idsWellFormed_pairwise_ne _ _ _ hV
    have pT := idsWellFormed_pairwise_ne _ _ _ hT
    have pA := idsWellFormed_pairwise_ne _ _ _ hA
    have hPV : (db.publishers.map (·.idPublisher) ++ db.venues.map (·.idVenue)).Pairwise
        (· ≠ ·) :=
      List.pairwise_append.mpr ⟨pP, pV, wf_cross_ne hP hV (by decide)⟩
    have hPVT : ((db.publishers.map (·.idPublisher) ++ db.venues.map (·.idVenue)) ++
        db.titles.map (·.idTitle)).Pairwise (· ≠ ·) := by
      refine List.pairwise_append.mpr ⟨hPV, pT, ?_⟩
      intro a ha b hb
      rcases List.mem_append.mp ha with h1 | h1
      · exact wf_cross_ne hP hT (by decide) a h1 b hb
      · exact wf_cross_ne hV hT (by decide) a h1 b hb
    refine List.pairwise_append.mpr ⟨hPVT, pA, ?_⟩
    intro a ha b hb
    rcases List.mem_append.mp ha with h1 | h1
    · rcases List.mem_append.mp h1 with h2 | h2
      · exact wf_cross_ne hP hA (by decide) a h2 b hb
      · exact wf_cross_ne hV hA (by decide) a h2 b hb
    · exact wf_cross_ne hT hA (by decide) a h1 b hb
  · intro ids c hc
    refine ⟨sheetNextId_not_mem ids c hc, ?_⟩
    intro s hs k hk
    refine ⟨idSuffix_sheetNextId ids c hc, ?_⟩
    have hin : k ∈ ids.filterMap (idSuffix c) := List.mem_filterMap.mpr ⟨s, hs, hk⟩
    have := mem_le_foldl_max _ 0 _ hin
    omega

/-- C5: witness at a concrete interleaved trace and a concrete id list. -/
theorem C5_id_generation_witness :
    (idsWellFormed ((runOps emptyDB
        [Op.pub "ACME".data, Op.title emptyTitleInput, Op.pub "Other".data,
         Op.author "Alice".data [] [], Op.title emptyTitleInput]).publishers.map
        (·.idPublisher)) 'P' (runOps emptyDB
        [Op.pub "ACME".data, Op.title emptyTitleInput, Op.pub "Other".data,
         Op.author "Alice".data [] [], Op.title emptyTitleInput]).counterP ∧
     (allIds (runOps emptyDB
        [Op.pub "ACME".data, Op.title emptyTitleInput, Op.pub "Other".data,
         Op.author "Alice".data [] [], Op.title emptyTitleInput])).Pairwise (· ≠ ·)) ∧
    sheetNextId ["T001".data, "T007".data] 'T' ∉ ["T001".data, "T007".data] := by
  have h1 := C5_id_generation.1 (runOps emptyDB
    [Op.pub "ACME".data, Op.title emptyTitleInput, Op.pub "Other".data,
     Op.author "Alice".data [] [], Op.title emptyTitleInput])
    ⟨[Op.pub "ACME".data, Op.title emptyTitleInput, Op.pub "Other".data,
      Op.author "Alice".data [] [], Op.title emptyTitleInput], rfl⟩
  have h2 := C5_id_generation.2 ["T001".data, "T007".data] 'T' (by decide)
  exact ⟨⟨h1.1.1, h1.2⟩, h2.1⟩

theorem mkParsedAuthor_order (e : Entry) (idx : Nat) (a : PyStr) (b : ParsedAuthor)
    (h : mkParsedAuthor e idx a = some b) : b.order = idx := by
  unfold mkParsedAuthor at h
  cases hg : givenFamilyOf a with
  | none => rw [hg] at h; cases h
  | some gf =>
    rw [hg] at h
    cases h
    rfl

theorem optMap_mkParsed_orders (e : Entry) :
    ∀ (l : List (Nat × PyStr)) (bs : List ParsedAuthor),
      optMap (fun p => mkParsedAuthor e p.1 p.2) l = some bs →
      bs.map (·.order) = l.map (·.1) := by
  intro l
  induction l with
  | nil => intro bs h; rw [optMap] at h; cases h; rfl
  | cons p rest ih =>
    intro bs h
    rw [optMap] at h
    cases hf : mkParsedAuthor e p.1 p.2 with
    | none => rw [hf] at h; cases h
    | some b =>
      rw [hf] at h
      cases hrest : optMap (fun p => mkParsedAuthor e p.1 p.2) rest with
      | none => rw [hrest] at h; cases h
      | some bs2 =>
        rw [hrest] at h
        cases h
        rw [List.map_cons, List.map_cons, ih bs2 hrest,
          mkParsedAuthor_order e p.1 p.2 b hf]

theorem numberFrom_map_fst : ∀ (l : List PyStr) (n : Nat),
    (numberFrom n l).map (·.1) = List.range' n l.length := by
  intro l
  induction l with
  | nil => intro n; rfl
  | cons a rest ih =>
    intro n
    rw [numberFrom, List.map_cons, List.length_cons, List.range'_succ, ih (n + 1)]

theorem numberFrom_length : ∀ (l : List PyStr) (n : Nat),
    (numberFrom n l).length = l.length := by
  intro l
  induction l with
  | nil => intro n; rfl
  | cons a rest ih =>
    intro n
    rw [numberFrom, List.length_cons, List.length_cons, ih (n + 1)]

theorem dedupeAuthors_sublist :
    ∀ (rows : List ParsedAuthor) (seen : List (PyStr × PyStr × PyStr)),
      (dedupeAuthors rows seen).Sublist rows := by
  intro rows
  induction rows with
  | nil => intro seen; exact List.Sublist.refl []
  | cons r rest ih =>
    intro seen
    rw [dedupeAuthors]
    by_cases h : dedupeKey r ∈ seen
    · rw [if_pos h]
      exact (ih seen).cons r
    · rw [if_neg h]
      exact (ih _).cons₂ r

theorem dedupeAuthors_keys :
    ∀ (rows : List ParsedAuthor) (seen : List (PyStr × PyStr × PyStr)),
      (dedupeAuthors rows seen).Pairwise (fun a b => dedupeKey a ≠ dedupeKey b) ∧
      ∀ x ∈ dedupeAuthors rows seen, dedupeKey x ∉ seen := by
  intro rows
  induction rows with
  | nil =>
    intro seen
    refine ⟨List.Pairwise.nil, ?_⟩
    intro x hx
    rw [dedupeAuthors] at hx
    cases hx
  | cons r rest ih =>
    intro seen
    rw [dedupeAuthors]
    by_cases h : dedupeKey r ∈ seen
    · rw [if_pos h]
      exact ih seen
    · rw [if_neg h]
      obtain ⟨hp, hs⟩ := ih (dedupeKey r :: seen)
      refine ⟨List.pairwise_cons.mpr ⟨?_, hp⟩, ?_⟩
      · intro x hx heq
        exact hs x hx (by rw [← heq]; exact List.mem_cons_self _ _)
      · intro x hx
        rcases List.mem_cons.mp hx with rfl | hmem
        · exact h
        · intro hxs
          exact hs x hmem (List.mem_cons_of_mem _ hxs)

theorem dedupeAuthors_repr :
    ∀ (rows : List ParsedAuthor) (seen : List (PyStr × PyStr × PyStr))
      (r : ParsedAuthor), r ∈ rows →
      dedupeKey r ∈ seen ∨ ∃ r2 ∈ dedupeAuthors rows seen, dedupeKey r2 = dedupeKey r := by
  intro rows
  induction rows with
  | nil => intro seen r hr; cases hr
  | cons a rest ih =>
    intro seen r hr
    rw [dedupeAuthors]
    by_cases h : dedupeKey a ∈ seen
    · rw [if_pos h]
      rcases List.mem_cons.mp hr with rfl | hmem
      · exact Or.inl h
      · exact ih seen r hmem
    · rw [if_neg h]
      rcases List.mem_cons.mp hr with rfl | hmem
      · exact Or.inr ⟨r, List.mem_cons_self _ _, rfl⟩
      · rcases ih (dedupeKey a :: seen) r hmem with h1 | h1
        · rcases List.mem_cons.mp h1 with he | hs2
          · exact Or.inr ⟨a, List.mem_cons_self _ _, he.symm⟩
          · exact Or.inl hs2
        · obtain ⟨r2, hr2, he⟩ := h1
          exact Or.inr ⟨r2, List.mem_cons_of_mem _ hr2, he⟩

theorem dedupeAuthors_first :
    ∀ (rows : List ParsedAuthor) (seen : List (PyStr × PyStr × PyStr))
      (r2 : ParsedAuthor), r2 ∈ dedupeAuthors rows seen →
      ∃ pre post, rows = pre ++ r2 :: post ∧ ∀ x ∈ pre, dedupeKey x ≠ dedupeKey r2 := by
  intro rows
  induction rows with
  | nil =>
    intro seen r2 h
    rw [dedupeAuthors] at h
    cases h
  | cons a rest ih =>
    intro seen r2 h
    rw [dedupeAuthors] at h
    by_cases hk : dedupeKey a ∈ seen
    · rw [if_pos hk] at h
      obtain ⟨pre, post, heq, hpre⟩ := ih seen r2 h
      refine ⟨a :: pre, post, by rw [heq]; rfl, ?_⟩
      intro x hx
      rcases List.mem_cons.mp hx with rfl | hmem
      · have hnotin := (dedupeAuthors_keys rest seen).2 r2 h
        intro hcon
        rw [hcon] at hk
        exact hnotin hk
      · exact hpre x hmem
    · rw [if_neg hk] at h
      rcases List.mem_cons.mp h with rfl | hmem
      · exact ⟨[], rest, rfl, by simp⟩
      · obtain ⟨pre, post, heq, hpre⟩ := ih _ r2 hmem
        refine ⟨a :: pre, post, by rw [heq]; rfl, ?_⟩
        intro x hx
        rcases List.mem_cons.mp hx with rfl | hmem2
        · have hnotin := (dedupeAuthors_keys rest (dedupeKey x :: seen)).2 r2 hmem
          intro hcon
          apply hnotin
          rw [← hcon]
          exact List.mem_cons_self _ _
        · exact hpre x hmem2

/-- C9: author-field mapping.  The example field splits on the literal
" and " into exactly three authors in encounter order with orders 1, 2, 3
and no brace characters; the split is case-sensitive (" AND " does not
split); every entry's author rows are numbered 1..n in encounter order; and
deduplication keeps exactly the first row of each (normalized name, key,
orcid) tuple. -/
theorem C9_author_field_mapping :
    (∃ rows : List ParsedAuthor,
      entriesToAuthors [⟨some "k1".data, none, none,
          some "Smith, John and Doe, Jane and Ferreira, R.".data, none, none⟩] =
        some rows ∧
      rows.length = 3 ∧
      rows.map (·.name) = ["Smith, John".data, "Doe, Jane".data, "Ferreira, R.".data] ∧
      rows.map (·.order) = [1, 2, 3] ∧
      rows.all (fun r => !(r.name.contains '\x7b' || r.name.contains '\x7d' ||
        r.nameNormalized.contains '\x7b' || r.nameNormalized.contains '\x7d')) = true) ∧
    authorSegments "Smith, John AND Doe, Jane".data =
      ["Smith, John AND Doe, Jane".data] ∧
    (∀ (e : Entry) (rows : List ParsedAuthor), rowsOfEntry e = some rows →
      rows.map (·.order) = List.range' 1 rows.length) ∧
    (∀ rows : List ParsedAuthor,
      (dedupeAuthors rows []).Sublist rows ∧
      (dedupeAuthors rows []).Pairwise (fun a b => dedupeKey a ≠ dedupeKey b) ∧
      (∀ r ∈ rows, ∃ r2 ∈ dedupeAuthors rows [], dedupeKey r2 = dedupeKey r) ∧
      (∀ r2 ∈ dedupeAuthors rows [], ∃ pre post, rows = pre ++ r2 :: post ∧
        ∀ x ∈ pre, dedupeKey x ≠ dedupeKey r2)) := by
  refine ⟨?_, by decide, ?_, ?_⟩
  · exact ⟨_, rfl, by decide, by decide, by decide, by decide⟩
  · intro e rows h
    unfold rowsOfEntry at h
    cases hau : e.author with
    | none => rw [hau] at h; cases h; rfl
    | some field =>
      rw [hau] at h
      dsimp only at h
      by_cases hf : field = []
      · rw [if_pos hf] at h
        cases h
        rfl
      · rw [if_neg hf] at h
        have hlen := optMap_some_length _ _ _ h
        rw [numberFrom_length] at hlen
        rw [optMap_mkParsed_orders e _ _ h, numberFrom_map_fst, hlen]
  · intro rows
    exact ⟨dedupeAuthors_sublist rows [], (dedupeAuthors_keys rows []).1,
      fun r hr => (dedupeAuthors_repr rows [] r hr).resolve_left (by simp),
      fun r2 hr2 => dedupeAuthors_first rows [] r2 hr2⟩

/-- C9: witness for the universally quantified parts, at an entry whose
author field repeats the same author twice. -/
theorem C9_author_field_mapping_witness :
    ([(⟨"Ann".data, "Ann".data, "Ann".data, [], [], "k".data, 1, []⟩ : ParsedAuthor),
      ⟨"Ann".data, "Ann".data, "Ann".data, [], [], "k".data, 2, []⟩].map (·.order)) =
      List.range' 1 ([(⟨"Ann".data, "Ann".data, "Ann".data, [], [], "k".data, 1, []⟩ :
        ParsedAuthor),
        ⟨"Ann".data, "Ann".data, "Ann".data, [], [], "k".data, 2, []⟩].length) ∧
    (dedupeAuthors [(⟨"Ann".data, "Ann".data, "Ann".data, [], [], "k".data, 1, []⟩ :
        ParsedAuthor),
      ⟨"Ann".data, "Ann".data, "Ann".data, [], [], "k".data, 2, []⟩] []).Sublist
      [(⟨"Ann".data, "Ann".data, "Ann".data, [], [], "k".data, 1, []⟩ : ParsedAuthor),
       ⟨"Ann".data, "Ann".data, "Ann".data, [], [], "k".data, 2, []⟩] := by
  have h3 := C9_author_field_mapping.2.2.1
    ⟨some "k".data, none, none, some "Ann and Ann".data, none, none⟩
    [⟨"Ann".data, "Ann".data, "Ann".data, [], [], "k".data, 1, []⟩,
     ⟨"Ann".data, "Ann".data, "Ann".data, [], [], "k".data, 2, []⟩] (by decide)
  have h4 := (C9_author_field_mapping.2.2.2
    [⟨"Ann".data, "Ann".data, "Ann".data, [], [], "k".data, 1, []⟩,
     ⟨"Ann".data, "Ann".data, "Ann".data, [], [], "k".data, 2, []⟩]).1
  exact ⟨h3, h4⟩

theorem optMap_map {α β γ : Type} (f : β → Option γ) (g : α → β) :
    ∀ l : List α, optMap f (l.map g) = optMap (fun a => f (g a)) l := by
  intro l
  induction l with
  | nil => rfl
  | cons a as ih => simp only [List.map_cons, optMap, ih]

theorem insertByKey_mem {α : Type} (key : α → Int) (a x : α) :
    ∀ l : List α, x ∈ insertByKey key a l ↔ x = a ∨ x ∈ l := by
  intro l
  induction l with
  | nil => simp [insertByKey]
  | cons b bs ih =>
    by_cases hb : key b < key a
    · rw [insertByKey, if_pos hb]
      simp only [List.mem_cons, ih]
      tauto
    · rw [insertByKey, if_neg hb]
      simp [List.mem_cons]

theorem stableSortByKey_mem {α : Type} (key : α → Int) (x : α) :
    ∀ l : List α, x ∈ stableSortByKey key l ↔ x ∈ l := by
  intro l
  induction l with
  | nil => exact Iff.rfl
  | cons a as ih =>
    rw [stableSortByKey, insertByKey_mem, ih]
    simp [List.mem_cons]

theorem lastAuthorName_of_exists (rows : List AuthorRow) (aid : PyStr)
    (h : ∃ a ∈ rows, a.idAuthor = aid) : ∃ n, lastAuthorName rows aid = some n := by
  obtain ⟨a, ha, hid⟩ := h
  cases hf : rows.reverse.find? (fun r => r.idAuthor == aid) with
  | none =>
    have hne := List.find?_eq_none.mp hf a (List.mem_reverse.mpr ha)
    simp [hid] at hne
  | some r =>
    exact ⟨r.authorName, by unfold lastAuthorName; rw [hf]; rfl⟩

/-- Under the export-safety conditions the record built for one title equals
the spec-side reference record. -/
theorem exportRowFor_safe (db : DB) (t : TitleRow) (h : exportSafe db) :
    exportRowFor db (db.authorTitles.map
      (fun r => (r.idTitle, (pyIntParse r.order).getD 0, r.idAuthor))) t =
      some (specExportRecord db t) := by
  have hfil : (db.authorTitles.map
      (fun r => (r.idTitle, (pyIntParse r.order).getD 0, r.idAuthor))).filter
        (fun p => p.1 == t.idTitle) =
      (db.authorTitles.filter (fun r => r.idTitle == t.idTitle)).map
        (fun r => (r.idTitle, (pyIntParse r.order).getD 0, r.idAuthor)) := by
    rw [List.filter_map]
    rfl
  have hmap2 : ((db.authorTitles.filter (fun r => r.idTitle == t.idTitle)).map
        (fun r => (r.idTitle, (pyIntParse r.order).getD 0, r.idAuthor))).map (·.2) =
      (db.authorTitles.filter (fun r => r.idTitle == t.idTitle)).map
        (fun r => ((pyIntParse r.order).getD 0, r.idAuthor)) := by
    rw [List.map_map]
    rfl
  have hsort : stableSortByKey (fun p => p.1)
      ((db.authorTitles.filter (fun r => r.idTitle == t.idTitle)).map
        (fun r => ((pyIntParse r.order).getD 0, r.idAuthor))) =
      (stableSortByKey (fun r => (pyIntParse r.order).getD 0)
        (db.authorTitles.filter (fun r => r.idTitle == t.idTitle))).map
        (fun r => ((pyIntParse r.order).getD 0, r.idAuthor)) := by
    rw [stableSortByKey_map]
  have hopt : optMap (fun p => lastAuthorName db.authors p.2)
      ((stableSortByKey (fun r => (pyIntParse r.order).getD 0)
        (db.authorTitles.filter (fun r => r.idTitle == t.idTitle))).map
        (fun r => ((pyIntParse r.order).getD 0, r.idAuthor))) =
      some ((stableSortByKey (fun r => (pyIntParse r.order).getD 0)
        (db.authorTitles.filter (fun r => r.idTitle == t.idTitle))).map
        (fun r => (lastAuthorName db.authors r.idAuthor).getD [])) := by
    rw [optMap_map]
    apply optMap_eq_some_map
    intro r hr
    have hrl : r ∈ db.authorTitles :=
      List.mem_of_mem_filter ((stableSortByKey_mem _ _ _).mp hr)
    obtain ⟨_, a, ha, hid⟩ := h r hrl
    obtain ⟨n, hn⟩ := lastAuthorName_of_exists db.authors r.idAuthor ⟨a, ha, hid⟩
    show lastAuthorName db.authors r.idAuthor =
      some ((lastAuthorName db.authors r.idAuthor).getD [])
    rw [hn]
    rfl
  unfold exportRowFor
  rw [hfil, hmap2, hsort, hopt]
  rfl

/-- Under the export-safety conditions export_rcaap_rows raises nothing and
returns exactly the spec-side reference record of every title, in table
order. -/
theorem export_of_exportSafe (db : DB) (h : exportSafe db) :
    exportRcaapRows db = some (db.titles.map (specExportRecord db)) := by
  have hpairs : allTitlePairs db = some (db.authorTitles.map
      (fun r => (r.idTitle, (pyIntParse r.order).getD 0, r.idAuthor))) := by
    unfold allTitlePairs
    apply optMap_eq_some_map
    intro r hr
    obtain ⟨⟨k, hk⟩, _⟩ := h r hr
    have hp : pyIntParse r.order = some k := by
      rw [hk]
      exact pyIntParse_pyIntStr k
    show (pyIntParse r.order).map _ = _
    rw [hp]
    rfl
  unfold exportRcaapRows
  rw [hpairs]
  exact optMap_eq_some_map _ _ _ (fun t _ => exportRowFor_safe db t h)

/-- C4: counterexample.  add_author_title accepts an author id that was
never created, so a reachable state exists whose Titles table is nonempty
while export_rcaap_rows raises KeyError (modelled as none) instead of
producing one record per title. -/
theorem C4_export_mapping_counterexample :
    Reachable (runOps emptyDB [Op.title emptyTitleInput,
      Op.link "A007".data "T001".data 1]) ∧
    (runOps emptyDB [Op.title emptyTitleInput,
      Op.link "A007".data "T001".data 1]).titles.length = 1 ∧
    exportRcaapRows (runOps emptyDB [Op.title emptyTitleInput,
      Op.link "A007".data "T001".data 1]) = none :=
  ⟨⟨[Op.title emptyTitleInput, Op.link "A007".data "T001".data 1], rfl⟩,
   by decide, by decide⟩

/-- C4 (amended): on every store state whose junction rows all carry an
integer-string Order and reference an existing author id, export_rcaap_rows
returns exactly one flat record per Title row, in table order, equal to the
spec-side reference record: the five dc keys in order, the authors of the
title sorted by the junction Order parsed as integer and joined by a
semicolon and space, and the publisher resolved through the venue chain
with the empty string as default. -/
theorem C4_export_mapping_amended (db : DB) (h : exportSafe db) :
    exportRcaapRows db = some (db.titles.map (specExportRecord db)) ∧
    ∀ row ∈ db.titles.map (specExportRecord db), row.map (fun kv => kv.1) = dcKeys := by
  refine ⟨export_of_exportSafe db h, ?_⟩
  intro row hrow
  obtain ⟨t, _, rfl⟩ := List.mem_map.mp hrow
  rfl

/-- C4: witness for the amended export theorem at a one-title, one-author,
one-link store. -/
theorem C4_export_mapping_amended_witness :
    exportRcaapRows (⟨[], [], [⟨"T001".data, [], [], [], [], [], [], [], [], []⟩],
        [⟨"A001".data, "Alice".data, [], []⟩],
        [⟨"A001".data, "T001".data, "1".data⟩], 0, 0, 1, 1⟩ : DB) =
      some ((⟨[], [], [⟨"T001".data, [], [], [], [], [], [], [], [], []⟩],
          [⟨"A001".data, "Alice".data, [], []⟩],
          [⟨"A001".data, "T001".data, "1".data⟩], 0, 0, 1, 1⟩ : DB).titles.map
        (specExportRecord (⟨[], [], [⟨"T001".data, [], [], [], [], [], [], [], [], []⟩],
          [⟨"A001".data, "Alice".data, [], []⟩],
          [⟨"A001".data, "T001".data, "1".data⟩], 0, 0, 1, 1⟩ : DB))) ∧
    ∀ row ∈ (⟨[], [], [⟨"T001".data, [], [], [], [], [], [], [], [], []⟩],
        [⟨"A001".data, "Alice".data, [], []⟩],
        [⟨"A001".data, "T001".data, "1".data⟩], 0, 0, 1, 1⟩ : DB).titles.map
        (specExportRecord (⟨[], [], [⟨"T001".data, [], [], [], [], [], [], [], [], []⟩],
          [⟨"A001".data, "Alice".data, [], []⟩],
          [⟨"A001".data, "T001".data, "1".data⟩], 0, 0, 1, 1⟩ : DB)),
      row.map (fun kv => kv.1) = dcKeys :=
  C4_export_mapping_amended _ (by
    intro r hr
    rw [List.mem_singleton] at hr
    subst hr
    exact ⟨⟨1, rfl⟩, ⟨"A001".data, "Alice".data, [], []⟩,
      List.mem_singleton_self _, rfl⟩)

theorem upsertLink_authors (aid tid : PyStr) (ord : Int) (ids : List PyStr)
    (haid : aid ∈ ids) :
    ∀ l : List AuthorTitleRow, (∀ r ∈ l, r.idAuthor ∈ ids) →
      ∀ x ∈ upsertLink l aid tid ord, x.idAuthor ∈ ids := by
  intro l
  induction l with
  | nil =>
    intro _ x hx
    rw [upsertLink, List.mem_singleton] at hx
    subst hx
    exact haid
  | cons r rs ih =>
    intro hall x hx
    rw [upsertLink] at hx
    by_cases hc : (r.idAuthor == aid && r.idTitle == tid) = true
    · rw [if_pos hc] at hx
      rcases List.mem_cons.mp hx with hx1 | hx2
      · subst hx1
        exact hall r (List.mem_cons_self _ _)
      · exact hall x (List.mem_cons_of_mem _ hx2)
    · rw [if_neg hc] at hx
      rcases List.mem_cons.mp hx with hx1 | hx2
      · subst hx1
        exact hall x (List.mem_cons_self _ _)
      · exact ih (fun r2 hr2 => hall r2 (List.mem_cons_of_mem _ hr2)) x hx2

theorem applyOp_pub_fields (db : DB) (n : PyStr) :
    (applyOp db (Op.pub n)).authorTitles = db.authorTitles ∧
    authorIds (applyOp db (Op.pub n)) = authorIds db := by
  show ((getOrCreatePublisher db n).2.authorTitles = db.authorTitles) ∧
    authorIds (getOrCreatePublisher db n).2 = authorIds db
  unfold authorIds getOrCreatePublisher
  cases hm : getPublisherByName db n with
  | some p => exact ⟨rfl, rfl⟩
  | none => exact ⟨rfl, rfl⟩

theorem applyOp_venue_fields (db : DB) (n p : PyStr) :
    (applyOp db (Op.venue n p)).authorTitles = db.authorTitles ∧
    authorIds (applyOp db (Op.venue n p)) = authorIds db := by
  show ((getOrCreateVenue db n p).2.authorTitles = db.authorTitles) ∧
    authorIds (getOrCreateVenue db n p).2 = authorIds db
  unfold authorIds getOrCreateVenue
  cases hm : getVenueByName db n with
  | some v => exact ⟨rfl, rfl⟩
  | none => exact ⟨rfl, rfl⟩

theorem applyOp_title_fields (db : DB) (t : TitleInput) :
    (applyOp db (Op.title t)).authorTitles = db.authorTitles ∧
    authorIds (applyOp db (Op.title t)) = authorIds db :=
  ⟨rfl, rfl⟩

theorem applyOp_author_fields (db : DB) (n o a : PyStr) :
    (applyOp db (Op.author n o a)).authorTitles = db.authorTitles ∧
    ∀ x ∈ authorIds db, x ∈ authorIds (applyOp db (Op.author n o a)) := by
  show ((getOrCreateAuthor db n o a).2.authorTitles = db.authorTitles) ∧
    ∀ x ∈ authorIds db, x ∈ authorIds (getOrCreateAuthor db n o a).2
  unfold authorIds getOrCreateAuthor
  cases hm : getAuthorByName db n with
  | some p =>
    refine ⟨rfl, ?_⟩
    intro x hx
    show x ∈ (backfillAuthor db.authors (pyStrip n) o a).map (·.idAuthor)
    rw [backfillAuthor_map_id]
    exact hx
  | none =>
    refine ⟨rfl, ?_⟩
    intro x hx
    show x ∈ (db.authors ++
      [(⟨'A' :: fmt03 (db.counterA + 1), pyStrip n, o, a⟩ : AuthorRow)]).map
        (fun r : AuthorRow => r.idAuthor)
    rw [List.map_append]
    exact List.mem_append_left _ hx

theorem applyOp_link_fields (db : DB) (aid tid : PyStr) (ord : Int) :
    (applyOp db (Op.link aid tid ord)).authorTitles =
      upsertLink db.authorTitles aid tid ord ∧
    authorIds (applyOp db (Op.link aid tid ord)) = authorIds db :=
  ⟨rfl, rfl⟩

/-- Along a link-valid trace every junction row's author id stays inside
the Authors table: authors are never removed and a link is only accepted
with an existing author id. -/
theorem validOps_linked :
    ∀ (ops : List Op) (db : DB), validOps db ops = true →
      (∀ r ∈ db.authorTitles, r.idAuthor ∈ authorIds db) →
      ∀ r ∈ (runOps db ops).authorTitles, r.idAuthor ∈ authorIds (runOps db ops) := by
  intro ops
  induction ops with
  | nil => intro db _ h; exact h
  | cons op rest ih =>
    intro db hv h
    rw [runOps_cons]
    cases op with
    | pub n =>
      have hvv : (true && validOps (applyOp db (Op.pub n)) rest) = true := hv
      refine ih _ (Bool.and_eq_true_iff.mp hvv).2 ?_
      obtain ⟨h1, h2⟩ := applyOp_pub_fields db n
      rw [h1, h2]
      exact h
    | venue n p =>
      have hvv : (true && validOps (applyOp db (Op.venue n p)) rest) = true := hv
      refine ih _ (Bool.and_eq_true_iff.mp hvv).2 ?_
      obtain ⟨h1, h2⟩ := applyOp_venue_fields db n p
      rw [h1, h2]
      exact h
    | title t =>
      have hvv : (true && validOps (applyOp db (Op.title t)) rest) = true := hv
      refine ih _ (Bool.and_eq_true_iff.mp hvv).2 ?_
      obtain ⟨h1, h2⟩ := applyOp_title_fields db t
      rw [h1, h2]
      exact h
    | author n o a =>
      have hvv : (true && validOps (applyOp db (Op.author n o a)) rest) = true := hv
      refine ih _ (Bool.and_eq_true_iff.mp hvv).2 ?_
      obtain ⟨h1, h2⟩ := applyOp_author_fields db n o a
      rw [h1]
      exact fun r hr => h2 _ (h r hr)
    | link aid tid ord =>
      have hvv : (decide (aid ∈ authorIds db) &&
          validOps (applyOp db (Op.link aid tid ord)) rest) = true := hv
      obtain ⟨hv1, hv2⟩ := Bool.and_eq_true_iff.mp hvv
      refine ih _ hv2 ?_
      obtain ⟨h1, h2⟩ := applyOp_link_fields db aid tid ord
      rw [h1, h2]
      exact upsertLink_authors aid tid ord (authorIds db)
        (of_decide_eq_true hv1) db.authorTitles h

/-- C10: counterexample.  add_author_title performs no existence check on
its author id, so through the public operations alone a state is reachable
that holds a junction row whose author id is in no Authors row, and on that
state export_rcaap_rows raises KeyError (modelled as none) instead of
returning one row per title. -/
theorem C10_export_totality_counterexample :
    Reachable (runOps emptyDB [Op.title emptyTitleInput,
      Op.link "A999".data "T001".data 2]) ∧
    (∃ r ∈ (runOps emptyDB [Op.title emptyTitleInput,
        Op.link "A999".data "T001".data 2]).authorTitles,
      r.idAuthor ∉ authorIds (runOps emptyDB [Op.title emptyTitleInput,
        Op.link "A999".data "T001".data 2])) ∧
    exportRcaapRows (runOps emptyDB [Op.title emptyTitleInput,
      Op.link "A999".data "T001".data 2]) = none :=
  ⟨⟨[Op.title emptyTitleInput, Op.link "A999".data "T001".data 2], rfl⟩,
   ⟨⟨"A999".data, "T001".data, "2".data⟩, by decide, by decide⟩, by decide⟩

/-- C10 (amended): on every store state reachable through the public
operations along a trace whose add_author_title calls each pass an author
id existing at call time, every junction row's Order is the decimal string
of the integer passed and its author id is in the Authors table, and
export_rcaap_rows raises nothing, returning exactly one row per stored
Title row in creation order. -/
theorem C10_export_totality_amended (db : DB) (h : ReachableLinked db) :
    (∀ r ∈ db.authorTitles,
      (∃ k : Int, r.order = pyIntStr k) ∧ r.idAuthor ∈ authorIds db) ∧
    ∃ rows, exportRcaapRows db = some rows ∧ rows.length = db.titles.length := by
  obtain ⟨ops, hval, hrun⟩ := h
  have hinv := reachable_storeInv db ⟨ops, hrun⟩
  have hlinked : ∀ r ∈ db.authorTitles, r.idAuthor ∈ authorIds db := by
    rw [← hrun]
    refine validOps_linked ops emptyDB hval ?_
    intro r hr
    simp [emptyDB] at hr
  have hsafe : exportSafe db := by
    intro r hr
    refine ⟨hinv.2.2.2.2.2.2 r hr, ?_⟩
    obtain ⟨a, ha, hida⟩ := List.mem_map.mp (hlinked r hr)
    exact ⟨a, ha, hida⟩
  refine ⟨fun r hr => ⟨hinv.2.2.2.2.2.2 r hr, hlinked r hr⟩,
    db.titles.map (specExportRecord db), export_of_exportSafe db hsafe, ?_⟩
  rw [List.length_map]

/-- C10: witness for the amended totality theorem on the link-valid trace
that creates one author, one title and one link. -/
theorem C10_export_totality_amended_witness :
    (∀ r ∈ (runOps emptyDB [Op.author "Alice".data [] [], Op.title emptyTitleInput,
        Op.link "A001".data "T001".data 1]).authorTitles,
      (∃ k : Int, r.order = pyIntStr k) ∧
        r.idAuthor ∈ authorIds (runOps emptyDB [Op.author "Alice".data [] [],
          Op.title emptyTitleInput, Op.link "A001".data "T001".data 1])) ∧
    ∃ rows, exportRcaapRows (runOps emptyDB [Op.author "Alice".data [] [],
        Op.title emptyTitleInput, Op.link "A001".data "T001".data 1]) = some rows ∧
      rows.length = (runOps emptyDB [Op.author "Alice".data [] [],
        Op.title emptyTitleInput, Op.link "A001".data "T001".data 1]).titles.length :=
  C10_export_totality_amended _
    ⟨[Op.author "Alice".data [] [], Op.title emptyTitleInput,
      Op.link "A001".data "T001".data 1], by decide, rfl⟩
